import Mathlib

/-!
Verification of the `poet` core against its specification.

The development shallowly embeds the two core source files:

* `src/poet/dictionary.rs` — phoneme sequences, lexicon entries, the
  dictionary with its rhyme-similarity search (`similar`), and
* `src/poet/snippet.rs` — the tokenizer/normalizer, stanza construction,
  the interpretation engine (`InterpretationsIter`) and the verse-form
  classifiers (`is_haiku`, `is_shakespearean_sonnet`).

Modelling conventions:

* Rust `String` / `&str` values are modelled as `List Char` (`Str` below);
  the entry points that Rust exposes on `String` are wrapped over
  `String.toList` where convenient.  Rust's `char` is a Unicode scalar
  value, exactly Lean's `Char`.
* The Rust code only manipulates small non-negative counters (`i32`
  syllable counts, scores, variants, `usize` indices); no claim involves
  integer overflow, so these are modelled as `Nat`.
* Code paths that panic in Rust (`unwrap()` on `None`, out-of-bounds
  indexing) are modelled explicitly: `Entry::new` returns an
  `EntryResult` with a dedicated `panics` outcome, because reaching a
  panic versus returning an error value is what claim C1 is about.
* ASCII case folding (`to_lowercase`, `[A-Z]`, `is_numeric` on ASCII
  digits) is modelled with Lean's ASCII `Char` predicates; every string
  the claims mention is ASCII apart from the four curly quote characters,
  which are unaffected by case folding in both systems.
-/

namespace Poet

/-- Str models a Rust string as the list of its characters. -/
abbrev Str := List Char

/-- Fold a list of ASCII digit characters into the number they denote. -/
def digitsToNat (ds : Str) : Nat :=
  ds.foldl (fun n c => n * 10 + (c.toNat - 48)) 0

/-- Decimal digit string of a natural number (used by dict_key). -/
def natDigits (n : Nat) : Str := (Nat.repr n).toList

/-- Helper for splitWs: accumulates the current word (reversed). -/
def splitWsGo : Str → Str → List Str
  | [], acc => if acc.isEmpty then [] else [acc.reverse]
  | c :: cs, acc =>
    if c.isWhitespace then
      if acc.isEmpty then splitWsGo cs [] else acc.reverse :: splitWsGo cs []
    else splitWsGo cs (c :: acc)

/-- Models Rust's str::split_whitespace: maximal runs of non-whitespace. -/
def splitWs (l : Str) : List Str := splitWsGo l []

/-!  Phoneme sequences (struct Phonemes in dictionary.rs).  -/

/-- Character class `[A-Z]` of PHONEME_RE (ASCII uppercase letters). -/
def chIsUp (c : Char) : Bool := 65 ≤ c.toNat && c.toNat ≤ 90

/-- Character class `[0-9]` of PHONEME_RE (ASCII digits). -/
def chIsDig (c : Char) : Bool := 48 ≤ c.toNat && c.toNat ≤ 57

/-- Models the capture of PHONEME_RE = `[A-Z]+([0-9]+)?` at a match start:
the maximal uppercase run followed by the maximal digit run, plus whether
the digit group is nonempty (capture group 1 present). -/
def phonemeMatchAt (l : Str) : Str × Bool :=
  let u := l.takeWhile chIsUp
  let d := (l.dropWhile chIsUp).takeWhile chIsDig
  (u ++ d, !d.isEmpty)

/-- Models Regex::captures for PHONEME_RE: the leftmost match in the
token, or none when the token contains no uppercase letter (the source
then panics on `.unwrap()`). -/
def phonemeCapture : Str → Option (Str × Bool)
  | [] => none
  | c :: cs => if chIsUp c then some (phonemeMatchAt (c :: cs)) else phonemeCapture cs

/-- Phonemes of one pronunciation: the parsed phoneme strings in source
order, and the derived syllable count (struct Phonemes). -/
structure Phonemes where
  phonemes : List Str
  syllables : Nat
deriving Repr, DecidableEq

/-- Models the parsing loop of Phonemes::from_slice: captures each token
in order, failing (panicking) at the first token with no match. -/
def capturesList : List Str → Option (List (Str × Bool))
  | [] => some []
  | t :: ts =>
    match phonemeCapture t with
    | none => none
    | some c =>
      match capturesList ts with
      | none => none
      | some cs => some (c :: cs)

/-- Models Phonemes::from_slice: parses each token with PHONEME_RE,
pushing the matched text and counting tokens whose digit group matched.
Returns none where the source would panic (a token with no match). -/
def Phonemes.from_slice (tokens : List Str) : Option Phonemes :=
  match capturesList tokens with
  | none => none
  | some caps => some ⟨caps.map (·.1), caps.countP (·.2)⟩

/-- Models Phonemes::num_syllables. -/
def Phonemes.num_syllables (p : Phonemes) : Nat := p.syllables

/-!  Lexicon entries (struct Entry in dictionary.rs).  -/

/-- One row of the lexicon: word, pronunciation, variant (struct Entry). -/
structure Entry where
  word : Str
  phonemes : Phonemes
  variant : Nat
deriving Repr, DecidableEq

/-- Result of Entry::new.  The Rust constructor returns a bare `Entry`
and has no error channel; the failure paths it does have are panics
(`tokens[0]` on an empty token list, `.unwrap()` on a phoneme token with
no PHONEME_RE match), modelled by the `panics` outcome. -/
inductive EntryResult where
  | panics
  | ok (e : Entry)
deriving Repr, DecidableEq

/-- Character class `[^ ()#]` of TERM_RE's first capture group. -/
def isTermChar (c : Char) : Bool :=
  !(c = ' ' || c = '(' || c = ')' || c = '#')

/-- Models the optional `(\(([0-9]+)\))?` group of TERM_RE immediately
after the word: some n when the text continues with `(digits)`. -/
def parenVariant : Str → Option Nat
  | '(' :: more =>
    let ds := more.takeWhile chIsDig
    if ds.isEmpty then none
    else
      match more.dropWhile chIsDig with
      | ')' :: _ => some (digitsToNat ds)
      | _ => none
  | _ => none

/-- Models Entry::new: strips a `#` comment, splits on whitespace, parses
the first token with TERM_RE = `([^ ()#]*)(\(([0-9]+)\))?` (leftmost
match at position 0), and parses the remaining tokens as phonemes.
Panics (result `.panics`) when there is no first token, or when a phoneme
token has no PHONEME_RE match. -/
def Entry.new (line : Str) : EntryResult :=
  match splitWs (line.takeWhile (· ≠ '#')) with
  | [] => .panics
  | t0 :: rest =>
    match Phonemes.from_slice rest with
    | none => .panics
    | some phs =>
      .ok { word := t0.takeWhile isTermChar,
            phonemes := phs,
            variant :=
              match parenVariant (t0.dropWhile isTermChar) with
              | some n => n
              | none => 1 }

/-- Models Entry::num_syllables. -/
def Entry.num_syllables (e : Entry) : Nat := e.phonemes.num_syllables

/-- Claim-side: the spec's phoneme grammar, an uppercase letter run
optionally followed by digits, matched against the WHOLE token. -/
def matchesPhonemeGrammar (t : Str) : Bool :=
  !(t.takeWhile chIsUp).isEmpty && (t.dropWhile chIsUp).all chIsDig

/-- Claim-side helper: the syllable count of a successfully constructed
entry, none when construction panics. -/
def entrySyllables : EntryResult → Option Nat
  | .panics => none
  | .ok e => some e.num_syllables

/-- Models Entry::dict_key: the word itself for variant 1, otherwise
`word(variant)`. -/
def Entry.dict_key (e : Entry) : Str :=
  if e.variant = 1 then e.word else e.word ++ '(' :: natDigits e.variant ++ [')']

/-!  The tokenizer/normalizer (normalize_for_lookup in snippet.rs).  -/

/-- Models char lowercasing for the ASCII range.  The source applies
Rust's str::to_lowercase; on ASCII and on the four curly punctuation
characters the claims mention, the two agree. -/
def asciiLower (c : Char) : Char :=
  if 65 ≤ c.toNat ∧ c.toNat ≤ 90 then Char.ofNat (c.toNat + 32) else c

/-- The characters unconditionally removed by normalize_for_lookup's
filter_map: `! , ? : ; " “ ”`. -/
def isRemovedPunct (c : Char) : Bool :=
  c = '!' || c = ',' || c = '?' || c = ':' || c = ';' ||
  c = '"' || c = '“' || c = '”'

/-- Models the stateful filter_map in normalize_for_lookup.  The Bool
argument is found_period (a '.' has been seen); the result is the kept
characters and the final has_inner_periods flag (set when a character in
the default arm follows an earlier '.'). -/
def normFilter : Str → Bool → Str × Bool
  | [], _ => ([], false)
  | c :: cs, foundPeriod =>
    if isRemovedPunct c then normFilter cs foundPeriod
    else if c = '’' then
      let r := normFilter cs foundPeriod
      ('\'' :: r.1, r.2)
    else if c = '.' then
      let r := normFilter cs true
      ('.' :: r.1, r.2)
    else
      let r := normFilter cs foundPeriod
      (c :: r.1, r.2 || foundPeriod)

/-- Models the `while result.ends_with('-') pop` loop: removes every
trailing '-'. -/
def stripTrailingDashes (l : Str) : Str :=
  (l.reverse.dropWhile (· = '-')).reverse

/-- Models normalize_for_lookup: lower-case, run the punctuation
filter_map, remove all '.' unless has_inner_periods, then strip trailing
dashes. -/
def normalize_for_lookup (term : Str) : Str :=
  stripTrailingDashes
    (if (normFilter (term.map asciiLower) false).2 then
      (normFilter (term.map asciiLower) false).1
    else
      (normFilter (term.map asciiLower) false).1.filter (· ≠ '.'))

/-- String-level wrapper of normalize_for_lookup. -/
def normalizeString (term : String) : String :=
  String.mk (normalize_for_lookup term.toList)

/-- Claim-side: some '.' in the word is followed (not necessarily
immediately) by an ASCII letter or digit. -/
def chIsAlnum (c : Char) : Bool :=
  chIsUp c || chIsDig c || (97 ≤ c.toNat && c.toNat ≤ 122)

/-- Claim-side: scans for a '.' that has a letter/digit somewhere after
it ("a letter/digit follows a '.' elsewhere in the word"). -/
def periodFollowedByAlnum : Str → Bool
  | [] => false
  | c :: cs => (c = '.' && cs.any chIsAlnum) || periodFollowedByAlnum cs

/-- Claim-side (amended C2): the characters that reach the filter's
default arm — kept characters other than '.' and the curly apostrophe.
Any such character after a period marks the period as inner. -/
def isDefaultKept (c : Char) : Bool :=
  !isRemovedPunct c && c ≠ '’' && c ≠ '.'

/-- Claim-side (amended C2): some '.' in the word is followed (not
necessarily immediately) by a default-arm kept character — the exact
condition under which the code keeps the word's periods. -/
def periodFollowedByKept : Str → Bool
  | [] => false
  | c :: cs => (c = '.' && cs.any isDefaultKept) || periodFollowedByKept cs

/-- Claim-side (amended C2): the kept-character sequence in spec terms —
lower-case, drop the removed punctuation, convert the curly apostrophe
to ASCII. -/
def normKept (w : Str) : Str :=
  ((w.map asciiLower).filter fun c => !isRemovedPunct c).map
    fun c => if c = '’' then '\'' else c

/-!  Rhyming primitives (Phonemes::last_n_syllables and friends).  -/

/-- Helper for last_n_syllables: walks the reversed phoneme list, pushing
each phoneme followed by a space, and stops once `need` vowels (phonemes
containing a digit) have been taken. -/
def lnsGo : List Str → Nat → Str
  | [], _ => []
  | p :: ps, need =>
    p ++ ' ' :: (if p.any chIsDig then (if need ≤ 1 then [] else lnsGo ps (need - 1))
                 else lnsGo ps need)

/-- Models Phonemes::last_n_syllables: the reversed phonemes up to and
including the n-th vowel, space-joined with trailing spaces. -/
def Phonemes.last_n_syllables (p : Phonemes) (n : Nat) : Str :=
  lnsGo p.phonemes.reverse n

/-- Models Phonemes::rhymes_with: equality of the last syllable keys. -/
def Phonemes.rhymes_with (a b : Phonemes) : Bool :=
  decide (a.last_n_syllables 1 = b.last_n_syllables 1)

/-- Models Entry::rhymes_with. -/
def Entry.rhymes_with (a b : Entry) : Bool :=
  a.phonemes.rhymes_with b.phonemes

/-!  Stanza model (Token, Line in snippet.rs).  -/

/-- One word of user text after normalization, with the dictionary
entries for it when the word is known (struct Token; the Rust field is a
borrowed `Option<&Vec<Entry>>`). -/
structure Token where
  text : Str
  entry : Option (List Entry)
deriving Repr, DecidableEq

/-- One line of a stanza (struct Line). -/
structure Line where
  raw_text : Str
  num : Nat
  index : Nat
  tokens : List Token
deriving Repr, DecidableEq

instance : Inhabited Line := ⟨⟨[], 0, 0, []⟩⟩

/-- Models Line::has_unknown_words (a filter-count > 0 test). -/
def Line.has_unknown_words (l : Line) : Bool :=
  decide (0 < l.tokens.countP fun t => t.entry.isNone)

/-!  Views (LineView, StanzaView in snippet.rs).  -/

/-- A view of a Line pinning one variant index per token (struct
LineView: a borrowed line plus the `indices` vector). -/
structure LineView where
  line : Line
  indices : List Nat
deriving Repr, DecidableEq

instance : Inhabited LineView := ⟨⟨default, []⟩⟩

/-- Models LineView::new: all indices zero. -/
def LineView.new (l : Line) : LineView :=
  ⟨l, List.replicate l.tokens.length 0⟩

/-- Models LineView::get_entry.  Rust indexes `tokens[idx]` and
`v[indices[idx]]`, panicking out of bounds; the model returns none there,
and every theorem that touches it carries the in-bounds view invariant
under which the two agree. -/
def LineView.get_entry (v : LineView) (idx : Nat) : Option Entry :=
  match v.line.tokens.get? idx, v.indices.get? idx with
  | some t, some i =>
    match t.entry with
    | some es => es.get? i
    | none => none
  | _, _ => none

/-- Models LineView::last_entry: the entry of the final token. -/
def LineView.last_entry (v : LineView) : Option Entry :=
  v.get_entry (v.indices.length - 1)

/-- Syllable contribution of one token under a selected variant index. -/
def tokenSyl : Token → Nat → Nat
  | t, i =>
    match t.entry with
    | some es => ((es.get? i).map Entry.num_syllables).getD 0
    | none => 0

/-- Models LineView::num_syllables: the sum over tokens of the selected
entry's syllable count, skipping unknown words. -/
def LineView.num_syllables (v : LineView) : Nat :=
  ((v.line.tokens.zip v.indices).map fun p => tokenSyl p.1 p.2).sum

/-- Models LineView::num (the 1-indexed source line number). -/
def LineView.num (v : LineView) : Nat := v.line.num

/-- Models LineView::index (the 0-indexed position in the stanza). -/
def LineView.index (v : LineView) : Nat := v.line.index

/-- Models LineView::has_unknown_words. -/
def LineView.has_unknown_words (v : LineView) : Bool :=
  v.line.has_unknown_words

/-- A view of a stanza: one LineView per line (struct StanzaView; the
back-reference to the Stanza is omitted — the only code using it,
check_stanza_for_unknown_words, is commented out in both classifiers). -/
structure StanzaView where
  lines : List LineView
deriving Repr, DecidableEq

/-- Models StanzaView::num_lines. -/
def StanzaView.num_lines (v : StanzaView) : Nat := v.lines.length

/-!  Classifiers (ClassifyError, is_haiku, is_shakespearean_sonnet).  -/

/-- Stanza- or line-scoped classification errors (enum ClassifyError). -/
inductive ClassifyError where
  | StanzaError (msg : Str)
  | LineError (index : Nat) (msg : Str)
deriving Repr, DecidableEq

/-- Models the Display string of Phonemes: phonemes joined by spaces. -/
def Phonemes.display : List Str → Str
  | [] => []
  | [p] => p
  | p :: ps => p ++ ' ' :: Phonemes.display ps

/-- Models the Display string of Entry. -/
def Entry.display (e : Entry) : Str :=
  '"' :: e.word ++ '"' :: " (".toList ++ Phonemes.display e.phonemes.phonemes ++
  "); variant=".toList ++ natDigits e.variant ++
  ", syllables=".toList ++ natDigits e.num_syllables

/-- Equality of classification results is decidable (used by witnesses). -/
instance : DecidableEq (Except (List ClassifyError) Unit) := fun a b => by
  cases a with
  | ok u =>
    cases b with
    | ok v => cases u; cases v; exact isTrue rfl
    | error m => exact isFalse (fun h => by cases h)
  | error l =>
    cases b with
    | ok v => exact isFalse (fun h => by cases h)
    | error m =>
      exact decidable_of_iff (l = m)
        ⟨fun h => by rw [h], fun h => by injection h⟩

/-- Models the error accumulation pattern `if let Err(mut v) = check {
errors.append(&mut v) }`. -/
def errList : Except (List ClassifyError) Unit → List ClassifyError
  | .ok _ => []
  | .error v => v

/-- Models check_stanza_has_num_lines. -/
def check_stanza_has_num_lines (v : StanzaView) (n : Nat) :
    Except (List ClassifyError) Unit :=
  if v.num_lines ≠ n then
    .error [.StanzaError ("Expected ".toList ++ natDigits n ++
      " lines but the stanza has ".toList ++ natDigits v.num_lines ++ ".".toList)]
  else .ok ()

/-- Models check_line_has_num_syllables: exact match demanded when all
words are known; with unknown words, fail only when the known syllables
already reach the target. -/
def check_line_has_num_syllables (line : LineView) (expected : Nat) :
    Except (List ClassifyError) Unit :=
  if line.has_unknown_words then
    if line.num_syllables ≥ expected then
      .error [.LineError line.index ("line ".toList ++ natDigits line.num ++
        " has unknown words and ".toList ++ natDigits line.num_syllables ++
        " syllables already, so it will exceed the limit of ".toList ++
        natDigits expected ++ ".".toList)]
    else .ok ()
  else if line.num_syllables ≠ expected then
    .error [.LineError line.index ("line ".toList ++ natDigits line.num ++
      " has ".toList ++ natDigits line.num_syllables ++
      " syllables but should have ".toList ++ natDigits expected ++ ".".toList)]
  else .ok ()

/-- Models check_lines_rhyme: accept when either last entry is missing,
otherwise both lines get an error unless the last entries rhyme. -/
def check_lines_rhyme (a b : LineView) : Except (List ClassifyError) Unit :=
  match a.last_entry, b.last_entry with
  | some ea, some eb =>
    if ea.rhymes_with eb then .ok ()
    else
      let msg := "lines ".toList ++ natDigits a.num ++ " and ".toList ++
        natDigits b.num ++ ": the words ".toList ++ ea.display ++
        " and ".toList ++ eb.display ++ " don't rhyme?".toList
      .error [.LineError a.index msg, .LineError b.index msg]
  | _, _ => .ok ()

/-- Models is_haiku: line-count precondition, then the 5-7-5 syllable
checks with error accumulation. -/
def is_haiku (v : StanzaView) : Except (List ClassifyError) Unit :=
  match check_stanza_has_num_lines v 3 with
  | .error e => .error e
  | .ok _ =>
    let errors :=
      ((([5, 7, 5] : List Nat).zip v.lines).map fun p =>
        errList (check_line_has_num_syllables p.2 p.1)).flatten
    if errors.isEmpty then .ok () else .error errors

/-- The fixed rhyming line pairs of a Shakespearean sonnet. -/
def rhyming_lines : List (Nat × Nat) :=
  [(0, 2), (1, 3), (4, 6), (5, 7), (8, 10), (9, 11), (12, 13)]

/-- Models is_shakespearean_sonnet: line-count precondition, the 10
syllable check on every line and the rhyme check on the fixed pairs, all
errors accumulated. -/
def is_shakespearean_sonnet (v : StanzaView) : Except (List ClassifyError) Unit :=
  match check_stanza_has_num_lines v 14 with
  | .error e => .error e
  | .ok _ =>
    let sylErrors :=
      (v.lines.map fun l => errList (check_line_has_num_syllables l 10)).flatten
    let rhymeErrors :=
      (rhyming_lines.map fun p =>
        errList (check_lines_rhyme (v.lines.getD p.1 default)
          (v.lines.getD p.2 default))).flatten
    let errors := sylErrors ++ rhymeErrors
    if errors.isEmpty then .ok () else .error errors

/-!  The dictionary container (struct DictionaryImpl in dictionary.rs).  -/

/-- The dictionary: the word-keyed entry map (a HashMap in Rust,
modelled as an association list with unique keys) and the sorted reverse
similarity-key list. -/
structure DictionaryImpl where
  entries : List (Str × List Entry)
  reverse_list : List (Str × (Str × Nat))
deriving Repr, DecidableEq

/-- Association-list lookup modelling HashMap::get. -/
def lookupDict : List (Str × List Entry) → Str → Option (List Entry)
  | [], _ => none
  | (k, v) :: rest, w => if k = w then some v else lookupDict rest w

/-- Models DictionaryImpl::new. -/
def DictionaryImpl.new : DictionaryImpl := ⟨[], []⟩

/-- Models Dictionary::lookup. -/
def DictionaryImpl.lookup (d : DictionaryImpl) (term : Str) : Option (List Entry) :=
  lookupDict d.entries term

/-!  Stanza construction (Line::new_from_line, get_stanzas_from_text).  -/

/-- Models str::trim.  Rust trims Unicode whitespace; Lean's
Char.isWhitespace covers the ASCII whitespace every claim exercises. -/
def trimStr (l : Str) : Str :=
  ((l.dropWhile Char.isWhitespace).reverse.dropWhile Char.isWhitespace).reverse

/-- Models Line::new_from_line: split on whitespace, normalize each word
and look it up, retaining the whole variant list on the token. -/
def Line.new_from_line (raw : Str) (line_num : Nat) (index : Nat)
    (dict : DictionaryImpl) : Line :=
  ⟨raw, line_num, index,
   (splitWs raw).map fun w =>
     ⟨normalize_for_lookup w, dict.lookup (normalize_for_lookup w)⟩⟩

/-- A stanza: its lines and optional title (struct Stanza). -/
structure Stanza where
  lines : List Line
  title : Option Str
deriving Repr, DecidableEq

/-- Models Stanza::num_lines. -/
def Stanza.num_lines (s : Stanza) : Nat := s.lines.length

/-- Models the loop of get_stanzas_from_text: walks the raw lines
carrying the 0-based line counter, the lines of the stanza under
construction and the candidate title. -/
def gsLoop (dict : DictionaryImpl) :
    List Str → Nat → List Line → Option Str → List Stanza
  | [], _, cur, cand =>
    if 2 ≤ cur.length then [⟨cur, cand⟩] else []
  | raw :: rest, line_num, cur, cand =>
    let line := trimStr raw
    if line.head? = some '#' then gsLoop dict rest (line_num + 1) cur cand
    else if line.isEmpty then
      match cur with
      | [] => gsLoop dict rest (line_num + 1) [] cand
      | [x] => gsLoop dict rest (line_num + 1) [] (some x.raw_text)
      | _ => ⟨cur, cand⟩ :: gsLoop dict rest (line_num + 1) [] none
    else
      gsLoop dict rest (line_num + 1)
        (cur ++ [Line.new_from_line line (line_num + 1) cur.length dict]) cand

/-- Models get_stanzas_from_text.  The exclusion of input splitting is
per the spec (the loader supplies lines); the argument is the list of
raw lines of the text. -/
def get_stanzas_from_text (input : List Str) (dict : DictionaryImpl) : List Stanza :=
  gsLoop dict input 0 [] none

/-- Claim-side: the block decomposition the spec describes — comment
lines skipped entirely, blank lines separating maximal runs of retained
(trimmed) lines. -/
def specBlocksGo (acc : List Str) : List Str → List (List Str)
  | [] => if acc.isEmpty then [] else [acc]
  | raw :: rest =>
    let t := trimStr raw
    if t.head? = some '#' then specBlocksGo acc rest
    else if t.isEmpty then
      if acc.isEmpty then specBlocksGo [] rest else acc :: specBlocksGo [] rest
    else specBlocksGo (acc ++ [t]) rest

/-- Claim-side: block decomposition starting with an empty open block. -/
def specBlocks (ls : List Str) : List (List Str) := specBlocksGo [] ls

/-- Claim-side: the titling rule the spec describes over blocks — a
block of two or more lines becomes a stanza titled by the pending
candidate; a single-line block becomes the new candidate (superseding any
earlier one); candidates are reset after use and discarded at the end. -/
def specTitled : Option Str → List (List Str) → List (Option Str × List Str)
  | _, [] => []
  | cand, b :: bs =>
    if 2 ≤ b.length then (cand, b) :: specTitled none bs
    else
      match b with
      | [x] => specTitled (some x) bs
      | _ => specTitled none bs

/-- Claim-side projection of a stanza: its title and raw line texts. -/
def stanzaShape (s : Stanza) : Option Str × List Str :=
  (s.title, s.lines.map (·.raw_text))

/-!  The interpretation engine (LineView::advance, InterpretationsIter).  -/

/-- Models `v[1..].iter().all(|e| e.num_syllables() == v[0].num_syllables())`.
On an empty entry list the source panics first on `v[0]`; such lists are
excluded by the view invariant and the value here is immaterial. -/
def allSameSyl : List Entry → Bool
  | [] => true
  | x :: xs => xs.all fun e => decide (e.num_syllables = x.num_syllables)

/-- Models LineView::advance_internal.  The source recurses from index
idx to the end of the indices vector; the model recurses structurally on
the aligned token and index lists, returning the updated indices and the
rolled-over flag.  Length mismatches (a Rust panic) fall to the catch-all
arm and are excluded by the view invariant. -/
def advance_internal (filter : Bool) : List Token → List Nat → List Nat × Bool
  | t :: ts, i :: is =>
    let r := advance_internal filter ts is
    if !r.2 then (i :: r.1, false)
    else
      match t.entry with
      | none => (i :: r.1, true)
      | some v =>
        if i = 0 ∧ (v.length = 1 ∨ (ts ≠ [] ∧ filter = true ∧ allSameSyl v = true)) then
          (i :: r.1, true)
        else if i + 1 = v.length then (0 :: r.1, true)
        else ((i + 1) :: r.1, false)
  | _, is => (is, true)

/-- Models LineView::advance. -/
def LineView.advance (filter : Bool) (v : LineView) : LineView × Bool :=
  ((⟨v.line, (advance_internal filter v.line.tokens v.indices).1⟩ : LineView),
   (advance_internal filter v.line.tokens v.indices).2)

/-- Models the line loop in InterpretationsIter::next: advance lines in
order, stopping at the first that does not roll over. -/
def advanceLines (filter : Bool) : List LineView → List LineView × Bool
  | [] => ([], true)
  | lv :: rest =>
    let r := lv.advance filter
    if !r.2 then (r.1 :: rest, false)
    else
      let rr := advanceLines filter rest
      (r.1 :: rr.1, rr.2)

/-- Models StanzaView::new: a LineView per line, all indices zero. -/
def StanzaView.new (s : Stanza) : StanzaView :=
  ⟨s.lines.map LineView.new⟩

/-- Models struct InterpretationsIter. -/
structure InterpretationsIter where
  view : StanzaView
  first_run : Bool
  filter : Bool
deriving Repr, DecidableEq

/-- Models Stanza::interpretations / InterpretationsIter::new. -/
def Stanza.interpretations (s : Stanza) : InterpretationsIter :=
  ⟨StanzaView.new s, true, true⟩

/-- Models Iterator::next for InterpretationsIter: yield the current
(all-zero) view on the first call, then advance the odometer, returning
none once every line reports rolled-over. -/
def InterpretationsIter.next (it : InterpretationsIter) :
    Option (StanzaView × InterpretationsIter) :=
  if it.first_run then some (it.view, { it with first_run := false })
  else
    let r := advanceLines it.filter it.view.lines
    if r.2 then none
    else some (⟨r.1⟩, { it with view := ⟨r.1⟩ })

/-- Runs the iterator with the given amount of fuel, returning the
produced views and whether exhaustion (a none) was reached within the
fuel.  The sequence the source produces is the first component once the
second is true. -/
def runIter : Nat → InterpretationsIter → List StanzaView × Bool
  | 0, _ => ([], false)
  | fuel + 1, it =>
    match it.next with
    | none => ([], true)
    | some (v, it') =>
      let r := runIter fuel it'
      (v :: r.1, r.2)

/-- Models the per-line token walk of InterpretationsIter::size_hint:
the pair (pruned factor, unpruned factor) over a line's tokens, the last
token exempt from the same-syllable pruning. -/
def sizeTokens : List Token → Nat × Nat
  | [] => (1, 1)
  | [t] =>
    match t.entry with
    | some v => if v.length = 1 then (1, 1) else (v.length, v.length)
    | none => (1, 1)
  | t :: ts =>
    let r := sizeTokens ts
    match t.entry with
    | some v =>
      if v.length = 1 then r
      else if allSameSyl v then (r.1, v.length * r.2)
      else (v.length * r.1, v.length * r.2)
    | none => r

/-- Models InterpretationsIter::size_hint: (0, Some count), with count
the pruned or unpruned product according to the filter flag. -/
def InterpretationsIter.size_hint (it : InterpretationsIter) : Nat × Option Nat :=
  ((0 : Nat), some (if it.filter then
    (it.view.lines.map fun lv => (sizeTokens lv.line.tokens).1).prod
  else
    (it.view.lines.map fun lv => (sizeTokens lv.line.tokens).2).prod))

/-!  The odometer abstraction used to verify the engine.  Each token is
assigned a radix — the number of indices the iterator will cycle it
through — and advance_internal is proved to act as a mixed-radix
increment (least-significant digit last). -/

/-- Radix of the last token of a line: all its variants are enumerated. -/
def tokenRadixLast (t : Token) : Nat :=
  match t.entry with
  | some v => v.length
  | none => 1

/-- Radix of a non-final token: 1 (pinned to variant 0) when unknown,
single-variant, or pruned by the same-syllable rule. -/
def tokenRadixInner (filter : Bool) (t : Token) : Nat :=
  match t.entry with
  | some v =>
    if v.length = 1 then 1
    else if filter = true ∧ allSameSyl v = true then 1
    else v.length
  | none => 1

/-- The radix list of a line's tokens (last token exempt from pruning). -/
def lineRadixes (filter : Bool) : List Token → List Nat
  | [] => []
  | [t] => [tokenRadixLast t]
  | t :: ts => tokenRadixInner filter t :: lineRadixes filter ts

/-- Mixed-radix increment, least-significant digit last, rolling over to
all zeros with a carry flag. -/
def odomInc : List Nat → List Nat → List Nat × Bool
  | r :: rs, d :: ds =>
    let t := odomInc rs ds
    if !t.2 then (d :: t.1, false)
    else if d + 1 = r then (0 :: t.1, true)
    else ((d + 1) :: t.1, false)
  | _, ds => (ds, true)

/-- Mixed-radix value of a digit list (first digit most significant). -/
def odomVal : List Nat → List Nat → Nat
  | r :: rs, d :: ds => d * rs.prod + odomVal rs ds
  | _, _ => 0

/-- Chained odometer over the stanza's lines: line 0 is least
significant; a line that rolls over passes the carry to the next. -/
def sInc : List (List Nat) → List (List Nat) → List (List Nat) × Bool
  | rs :: rss, ds :: dss =>
    let t := odomInc rs ds
    if !t.2 then (t.1 :: dss, false)
    else
      let u := sInc rss dss
      (t.1 :: u.1, u.2)
  | _, dss => (dss, true)

/-- Value of the stanza odometer (line 0 least significant). -/
def sVal : List (List Nat) → List (List Nat) → Nat
  | rs :: rss, ds :: dss => odomVal rs ds + rs.prod * sVal rss dss
  | _, _ => 0

/-- Total number of digit assignments of the stanza odometer. -/
def sProd (rss : List (List Nat)) : Nat := (rss.map List.prod).prod

/-- In-bounds invariant for one line's digits against its radixes. -/
def digitsWF (rs ds : List Nat) : Prop := List.Forall₂ (fun r d => d < r) rs ds

/-- In-bounds invariant for the whole stanza. -/
def stanzaWF (rss dss : List (List Nat)) : Prop := List.Forall₂ digitsWF rss dss

/-- Digit list of a given value (least-significant digit last). -/
def odomDigits : List Nat → Nat → List Nat
  | [], _ => []
  | _ :: rs, n => (n / rs.prod) :: odomDigits rs (n % rs.prod)

/-- Stanza digit lists of a given value (line 0 least significant). -/
def sDigits : List (List Nat) → Nat → List (List Nat)
  | [], _ => []
  | rs :: rss, n => odomDigits rs (n % rs.prod) :: sDigits rss (n / rs.prod)

/-- All-zero digits except the last, which is t. -/
def zerosWithLast : List Nat → Nat → List Nat
  | [], _ => []
  | [_], t => [t]
  | _ :: rs, t => 0 :: zerosWithLast rs t

/-- Replaces the indices of each line view, keeping the lines. -/
def setIndices : List LineView → List (List Nat) → List LineView
  | lv :: lvs, ds :: dss => (⟨lv.line, ds⟩ : LineView) :: setIndices lvs dss
  | _, _ => []

/-- The radix lists of a stanza view's lines. -/
def viewRadixes (filter : Bool) (lvs : List LineView) : List (List Nat) :=
  lvs.map fun lv => lineRadixes filter lv.line.tokens

/-- The index lists of a stanza view's lines. -/
def viewIndices (lvs : List LineView) : List (List Nat) :=
  lvs.map (·.indices)

/-- Claim-side test fixture: an entry with the given syllable count and
variant number (the engine claims only inspect syllable counts). -/
def wEntry (syl v : Nat) : Entry := ⟨"w".toList, ⟨[], syl⟩, v⟩

/-- Claim-side test fixture mirroring the source's filtering test: three
lines; interior tokens b and e have several same-syllable variants (so
pruning pins them), the line-final token c has three variants, d is
unique and f is unknown. -/
def wStanza : Stanza :=
  ⟨[⟨"a b c".toList, 1, 0,
      [⟨"a".toList, some [wEntry 1 1]⟩,
       ⟨"b".toList, some [wEntry 1 1, wEntry 1 2]⟩,
       ⟨"c".toList, some [wEntry 1 1, wEntry 1 2, wEntry 1 3]⟩]⟩,
    ⟨"d".toList, 2, 1, [⟨"d".toList, some [wEntry 1 1]⟩]⟩,
    ⟨"e f".toList, 3, 2,
      [⟨"e".toList, some [wEntry 1 1, wEntry 1 2]⟩,
       ⟨"f".toList, none⟩]⟩], none⟩

/-- Claim-side test fixture: a fully known line of n copies of the
one-syllable word "a", with every variant index zero. -/
def mkWitnessLine (num index n : Nat) : LineView :=
  ⟨⟨"a".toList, num, index,
    List.replicate n ⟨"a".toList, some [⟨"a".toList, ⟨["AH0".toList], 1⟩, 1⟩]⟩⟩,
   List.replicate n 0⟩


/-!  The rhyme search (similarity keys, insertioning, similar).  -/

/-- Models Phonemes::similarity_key: the reversed phoneme sequence, each
phoneme followed by a space. -/
def Phonemes.similarity_key (p : Phonemes) : Str :=
  (p.phonemes.reverse.map fun ph => ph ++ [' ']).flatten

/-- Models Entry::similarity_key: the phoneme key extended with the
unique dict_key to disambiguate homonyms. -/
def Entry.similarity_key (e : Entry) : Str :=
  e.phonemes.similarity_key ++ e.dict_key

/-- Models the zip-and-break loop of Phonemes::similarity_score over the
two reversed phoneme lists. -/
def simScoreGo : List Str → List Str → Nat
  | a :: as, b :: bs => if a = b then 1 + simScoreGo as bs else 0
  | _, _ => 0

/-- Models Phonemes::similarity_score: the length of the common leading
run of the two reversed phoneme sequences. -/
def Phonemes.similarity_score (a b : Phonemes) : Nat :=
  simScoreGo a.phonemes.reverse b.phonemes.reverse

/-- Models struct SimilarWord (word, syllable count, score). -/
structure SimilarWord where
  word : Str
  syllables : Nat
  score : Nat
deriving Repr, DecidableEq

/-- Models struct SimilarResult. -/
structure SimilarResult where
  words : List SimilarWord
deriving Repr, DecidableEq

/-- Models impl Ord for SimilarWord as a ≤ relation: descending by
score, then ascending by word text (Rust compares UTF-8 bytes, which
orders exactly like code points). -/
def simLe (x y : SimilarWord) : Prop :=
  y.score < x.score ∨ (x.score = y.score ∧ x.word ≤ y.word)

instance : DecidableRel simLe := fun x y => by
  unfold simLe
  exact inferInstance

instance : IsTotal SimilarWord simLe where
  total a b := by
    rcases Nat.lt_trichotomy a.score b.score with h | h | h
    · exact Or.inr (Or.inl h)
    · rcases le_total a.word b.word with hw | hw
      · exact Or.inl (Or.inr ⟨h, hw⟩)
      · exact Or.inr (Or.inr ⟨h.symm, hw⟩)
    · exact Or.inl (Or.inl h)

instance : IsTrans SimilarWord simLe where
  trans a b c hab hbc := by
    rcases hab with h1 | ⟨h1, hw1⟩
    · rcases hbc with h2 | ⟨h2, hw2⟩
      · exact Or.inl (by omega)
      · exact Or.inl (by omega)
    · rcases hbc with h2 | ⟨h2, hw2⟩
      · exact Or.inl (by omega)
      · exact Or.inr ⟨by omega, le_trans hw1 hw2⟩

/-- Row order for the reverse list: the derived lexicographic tuple
order on (similarity key, (word, variant)) that Vec::sort uses. -/
def rowLe (x y : Str × (Str × Nat)) : Prop :=
  x.1 < y.1 ∨ (x.1 = y.1 ∧
    (x.2.1 < y.2.1 ∨ (x.2.1 = y.2.1 ∧ x.2.2 ≤ y.2.2)))

instance : DecidableRel rowLe := fun x y => by
  unfold rowLe
  exact inferInstance

/-- Models the entries-map update of insert_internal: push onto the
existing bucket, or insert a fresh singleton bucket. -/
def insertBucket : List (Str × List Entry) → Entry → List (Str × List Entry)
  | [], e => [(e.word, [e])]
  | (k, v) :: rest, e =>
    if k = e.word then (k, v ++ [e]) :: rest else (k, v) :: insertBucket rest e

/-- Models DictionaryImpl::insert_internal: append the reverse row and
update the bucket for the word. -/
def DictionaryImpl.insert_internal (d : DictionaryImpl) (e : Entry) : DictionaryImpl :=
  ⟨insertBucket d.entries e,
   d.reverse_list ++ [(e.similarity_key, (e.word, e.variant))]⟩

/-- The loop of insert_all: Entry::new each line and insert it; a line
on which Entry::new panics aborts the build (the model returns none). -/
def insertLines : DictionaryImpl → List Str → Option DictionaryImpl
  | d, [] => some d
  | d, line :: rest =>
    match Entry.new line with
    | .panics => none
    | .ok e => insertLines (d.insert_internal e) rest

/-- Models DictionaryImpl::insert_all: insert every line, then sort the
reverse list (Rust's stable Vec::sort, modelled by insertion sort). -/
def DictionaryImpl.insert_all (d : DictionaryImpl) (lines : List Str) :
    Option DictionaryImpl :=
  match insertLines d lines with
  | none => none
  | some d2 => some ⟨d2.entries, List.insertionSort rowLe d2.reverse_list⟩

/-- Models Dictionary::lookup_variant: the first entry of the word's
bucket carrying the requested variant. -/
def DictionaryImpl.lookup_variant (d : DictionaryImpl) (term : Str) (variant : Nat) :
    Option Entry :=
  match d.lookup term with
  | some v => v.find? fun e => decide (e.variant = variant)
  | none => none

/-- Models the inner row loop of DictionaryImpl::similar for one query
variant: keep rows whose key starts with the query variant's
last-syllable key, skip the query word itself, and score the row's
entry against the query variant.  The Rust code unwraps lookup_variant
(reverse_list is 1:1 with the map); the model returns none there, and
the C3 theorem carries the 1:1 invariant under which the two agree. -/
def similarRows (d : DictionaryImpl) (query : Str) (qv : Entry) : List SimilarWord :=
  d.reverse_list.filterMap fun row =>
    if (qv.phonemes.last_n_syllables 1).isPrefixOf row.1 then
      if row.2.1 = query then none
      else
        match d.lookup_variant row.2.1 row.2.2 with
        | none => none
        | some pr => some ⟨row.2.1, pr.num_syllables,
            qv.phonemes.similarity_score pr.phonemes⟩
    else none

/-- Models DictionaryImpl::similar: an unknown query yields the empty
result; otherwise all rows matched by any query variant, sorted by the
SimilarWord order (Rust's stable Vec::sort, modelled by insertion
sort). -/
def DictionaryImpl.similar (d : DictionaryImpl) (query : Str) : SimilarResult :=
  match d.lookup query with
  | none => ⟨[]⟩
  | some qvs =>
    ⟨List.insertionSort simLe ((qvs.map fun qv => similarRows d query qv).flatten)⟩

/-!  Claim-side definitions for C3, written from the spec wording.  -/

/-- Claim-side: the leading phonemes of a reversed sequence up to and
including the first vowel; with no vowel present, all of them. -/
def takeToVowel : List Str → List Str
  | [] => []
  | p :: ps => if p.any chIsDig then [p] else p :: takeToVowel ps

/-- Claim-side: the spec "final-syllable phoneme sequence (phonemes from
the end up to and including the first vowel, reversed)". -/
def finalSyllable (p : Phonemes) : List Str :=
  takeToVowel p.phonemes.reverse

/-- Claim-side: the spec candidate for one reverse row and one query
variant — kept exactly when the row entry final syllable equals the
query variant final syllable and the word is not the query itself,
scored by the longest common phoneme suffix run. -/
def specRhymeCandidate (d : DictionaryImpl) (query : Str) (qv : Entry)
    (row : Str × (Str × Nat)) : Option SimilarWord :=
  match d.lookup_variant row.2.1 row.2.2 with
  | none => none
  | some e =>
    if finalSyllable e.phonemes = finalSyllable qv.phonemes ∧ row.2.1 ≠ query then
      some ⟨row.2.1, e.num_syllables, qv.phonemes.similarity_score e.phonemes⟩
    else none

/-- Claim-side: all spec candidates over the query pronunciation
variants, one result per independently matching variant. -/
def specRhymes (d : DictionaryImpl) (query : Str) : List SimilarWord :=
  match d.lookup query with
  | none => []
  | some qvs =>
    (qvs.map fun qv => d.reverse_list.filterMap (specRhymeCandidate d query qv)).flatten

/-- Well-formedness of one entry for the C3 invariant: nonempty
space-free phoneme strings and a space-free dict key. -/
def entryWFB (e : Entry) : Bool :=
  e.phonemes.phonemes.all (fun ph => !ph.isEmpty && decide (' ' ∉ ph)) &&
  decide (' ' ∉ e.dict_key)

/-- The dictionary row invariant carried by C3: every reverse row
resolves (1:1) to a well-formed entry holding its similarity key. -/
def rowsWFB (d : DictionaryImpl) : Bool :=
  d.reverse_list.all fun row =>
    match d.lookup_variant row.2.1 row.2.2 with
    | none => false
    | some e => decide (row.1 = e.similarity_key) && entryWFB e

/-- The query-side hypothesis of the amended C3: every pronunciation
variant of the query is well-formed and contains a vowel phoneme (one
carrying a stress digit). -/
def queryWFB (d : DictionaryImpl) (query : Str) : Bool :=
  match d.lookup query with
  | none => true
  | some qvs => qvs.all fun qv =>
      qv.phonemes.phonemes.all (fun ph => !ph.isEmpty && decide (' ' ∉ ph)) &&
      qv.phonemes.phonemes.any (fun ph => ph.any chIsDig)

/-- C3 counterexample fixture: the dictionary built from the two-line
lexicon for sh and wish. -/
def cxDict : DictionaryImpl :=
  (DictionaryImpl.new.insert_all ["sh SH".toList, "wish W IH1 SH".toList]).getD
    DictionaryImpl.new

/-- C3 witness fixture: a three-word rhyming lexicon. -/
def catDict : DictionaryImpl :=
  (DictionaryImpl.new.insert_all
    ["bat B AE1 T".toList, "cat K AE1 T".toList, "sat S AE1 T".toList]).getD
    DictionaryImpl.new

end Poet

namespace Poet

/-- Sanity anchors for the entry parser, mirroring the source's tests. -/
example :
    Entry.new "ampersand AE1 M P ER0 S AE2 N D".toList =
      .ok { word := "ampersand".toList,
            phonemes := ⟨["AE1".toList, "M".toList, "P".toList, "ER0".toList,
                          "S".toList, "AE2".toList, "N".toList, "D".toList], 3⟩,
            variant := 1 } := by decide

example :
    Entry.new "amounted(2) AH0 M AW1 N IH0 D # comment".toList =
      .ok { word := "amounted".toList,
            phonemes := ⟨["AH0".toList, "M".toList, "AW1".toList, "N".toList,
                          "IH0".toList, "D".toList], 3⟩,
            variant := 2 } := by decide

/-!  Helper lemmas on the phoneme parser.  -/

/-- taking while p over a list whose members all satisfy p, followed by a
list whose head fails p, yields exactly the first list. -/
lemma takeWhile_all_append (p : Char → Bool) (u d : Str)
    (hu : ∀ c ∈ u, p c = true) (hd : ∀ c, d.head? = some c → p c = false) :
    (u ++ d).takeWhile p = u := by
  induction u with
  | nil =>
    simp only [List.nil_append]
    cases d with
    | nil => rfl
    | cons c cs => simp [List.takeWhile, hd c rfl]
  | cons c cs ih =>
    simp only [List.cons_append, List.takeWhile]
    rw [hu c (by simp)]
    simp [ih (fun x hx => hu x (by simp [hx]))]

/-- Uppercase ASCII letters are not digits. -/
lemma chIsUp_not_chIsDig {c : Char} (h : chIsUp c = true) : chIsDig c = false := by
  simp only [chIsUp, Bool.and_eq_true, decide_eq_true_eq] at h
  simp only [chIsDig, Bool.and_eq_false_iff, decide_eq_false_iff_not]
  omega

/-- Digits are not uppercase ASCII letters. -/
lemma chIsDig_not_chIsUp {c : Char} (h : chIsDig c = true) : chIsUp c = false := by
  simp only [chIsDig, Bool.and_eq_true, decide_eq_true_eq] at h
  simp only [chIsUp, Bool.and_eq_false_iff, decide_eq_false_iff_not]
  omega

/-- On a token that fully matches the phoneme grammar, PHONEME_RE's
leftmost match is the whole token and the digit group is nonempty iff the
token contains a digit. -/
lemma phonemeCapture_of_grammar (t : Str) (h : matchesPhonemeGrammar t = true) :
    phonemeCapture t = some (t, t.any chIsDig) := by
  simp only [matchesPhonemeGrammar, Bool.and_eq_true, Bool.not_eq_true',
    List.all_eq_true] at h
  obtain ⟨hne, hdig⟩ := h
  have hut : ∀ c ∈ t.takeWhile chIsUp, chIsUp c = true :=
    fun c hc => List.mem_takeWhile_imp hc
  have hsplit : t.takeWhile chIsUp ++ t.dropWhile chIsUp = t :=
    List.takeWhile_append_dropWhile chIsUp t
  have hma : phonemeMatchAt t = (t, t.any chIsDig) := by
    have htw2 : (t.dropWhile chIsUp).takeWhile chIsDig = t.dropWhile chIsUp :=
      List.takeWhile_eq_self_iff.mpr hdig
    have hany : t.any chIsDig = !(t.dropWhile chIsUp).isEmpty := by
      conv_lhs => rw [← hsplit]
      rw [List.any_append]
      have h1 : (t.takeWhile chIsUp).any chIsDig = false := by
        rw [List.any_eq_false]
        intro x hx
        simp [chIsUp_not_chIsDig (hut x hx)]
      rw [h1, Bool.false_or]
      cases hd' : t.dropWhile chIsUp with
      | nil => simp
      | cons y ys =>
        have hy : chIsDig y = true := hdig y (by rw [hd']; simp)
        simp [hy]
    simp only [phonemeMatchAt]
    rw [htw2, hany]
    conv_lhs => rw [hsplit]
  cases ht : t with
  | nil =>
    rw [ht] at hne
    simp [List.takeWhile] at hne
  | cons c cs =>
    have hc : chIsUp c = true := by
      by_contra hcc
      have : t.takeWhile chIsUp = [] := by
        rw [ht]
        simp only [List.takeWhile]
        cases hcv : chIsUp c with
        | false => rfl
        | true => exact absurd hcv hcc
      rw [this] at hne
      simp at hne
    subst ht
    simp [phonemeCapture, hc, hma]

/-- Capturing a token list in which every token matches the grammar
succeeds and returns the tokens themselves with their digit flags. -/
lemma capturesList_of_grammar (ts : List Str)
    (h : ∀ t ∈ ts, matchesPhonemeGrammar t = true) :
    capturesList ts = some (ts.map fun t => (t, t.any chIsDig)) := by
  induction ts with
  | nil => rfl
  | cons t ts ih =>
    have h0 : phonemeCapture t = some (t, t.any chIsDig) :=
      phonemeCapture_of_grammar t (h t (by simp))
    have h1 : capturesList ts = some (ts.map fun t => (t, t.any chIsDig)) :=
      ih (fun x hx => h x (by simp [hx]))
    simp [capturesList, h0, h1]

/-- If any token has no PHONEME_RE match, the capture loop fails. -/
lemma capturesList_eq_none (ts : List Str)
    (h : ∃ t ∈ ts, phonemeCapture t = none) :
    capturesList ts = none := by
  induction ts with
  | nil => simp at h
  | cons t ts ih =>
    obtain ⟨x, hx, hnone⟩ := h
    rcases List.mem_cons.mp hx with rfl | hmem
    · simp [capturesList, hnone]
    · cases hc : phonemeCapture t with
      | none => simp [capturesList, hc]
      | some c => simp [capturesList, hc, ih ⟨x, hmem, hnone⟩]

/-- A token with no uppercase ASCII letter has no PHONEME_RE match. -/
lemma phonemeCapture_eq_none_of_no_upper (t : Str)
    (h : ∀ c ∈ t, chIsUp c = false) : phonemeCapture t = none := by
  induction t with
  | nil => rfl
  | cons c cs ih =>
    have hc := h c (by simp)
    have hrest := ih fun x hx => h x (by simp [hx])
    simp [phonemeCapture, hc, hrest]

/-!  Claim C1 (corrected).

The spec claims that a lexicon line with no parseable first token, or
with a phoneme token violating the phoneme grammar, produces a
caller-visible malformed-input error "rather than panicking or
aborting".  In the source, `Entry::new` returns a bare `Entry` — it has
no error channel at all — and on exactly those inputs it panics:
`tokens[0]` on an empty token list, and `.unwrap()` on the `None`
returned by `PHONEME_RE.captures` for a token with no uppercase letter.
-/

/-- C1 counterexample: the line "hello zz" contains the phoneme token
"zz", which fails the phoneme grammar, yet `Entry::new` panics instead of
reporting a caller-visible error (there is no error outcome to report:
the only non-success outcome of the constructor is the panic); the empty
line (no parseable first token) likewise panics. -/
theorem c1_entry_new_panics_counterexample :
    matchesPhonemeGrammar "zz".toList = false ∧
    Entry.new "hello zz".toList = .panics ∧
    Entry.new "".toList = .panics := by
  refine ⟨by decide, by decide, by decide⟩

/-- C1 amended: for every lexicon input line that has no parseable first
token, or whose phoneme tokens include one with no uppercase letter (such
a token violates the phoneme grammar and has no PHONEME_RE match),
constructing the Entry panics — the failure is a panic at the ingestion
boundary, not a caller-visible error value. -/
theorem c1_entry_new_panics_on_malformed (line : Str)
    (h : splitWs (line.takeWhile (· ≠ '#')) = [] ∨
         ∃ t ∈ (splitWs (line.takeWhile (· ≠ '#'))).tail,
           ∀ c ∈ t, chIsUp c = false) :
    Entry.new line = .panics := by
  cases hs : splitWs (line.takeWhile (· ≠ '#')) with
  | nil => simp only [Entry.new, hs]
  | cons t0 rest =>
    rcases h with h | h
    · rw [hs] at h; cases h
    · rw [hs] at h
      obtain ⟨t, ht, hnone⟩ := h
      have hcap : capturesList rest = none :=
        capturesList_eq_none rest ⟨t, ht, phonemeCapture_eq_none_of_no_upper t hnone⟩
      simp only [Entry.new, hs, Phonemes.from_slice, hcap]

/-- Witness for the amended C1 at the concrete line "hello zz". -/
theorem c1_entry_new_panics_on_malformed_witness :
    Entry.new "hello zz".toList = .panics :=
  c1_entry_new_panics_on_malformed "hello zz".toList (Or.inr (by decide))

/-!  Claim C9 (confirmed): syllable_count equals the number of phoneme
tokens carrying a stress digit.  -/

/-- C9: for every phoneme token list conforming to the phoneme grammar,
parsing succeeds, stores exactly the given tokens, and derives the
syllable count as the number of tokens carrying a (stress) digit; and on
the spec's examples, "aardvark AA1 R D V AA2 R K" parses with 2 syllables
and "gdp G IY1 D IY1 P IY1" with 3. -/
theorem c9_syllable_count_eq_stress_digit_tokens :
    (∀ tokens : List Str, (∀ t ∈ tokens, matchesPhonemeGrammar t = true) →
      Phonemes.from_slice tokens =
        some ⟨tokens, tokens.countP (fun t => t.any chIsDig)⟩) ∧
    entrySyllables (Entry.new "aardvark AA1 R D V AA2 R K".toList) = some 2 ∧
    entrySyllables (Entry.new "gdp G IY1 D IY1 P IY1".toList) = some 3 := by
  refine ⟨?_, by decide, by decide⟩
  intro tokens h
  simp only [Phonemes.from_slice, capturesList_of_grammar tokens h,
    Option.some.injEq, Phonemes.mk.injEq]
  constructor
  · rw [List.map_map]
    rw [show ((fun x : Str × Bool => x.1) ∘ fun t : Str => (t, t.any chIsDig)) = id from rfl,
      List.map_id]
  · rw [List.countP_map]
    rfl

/-- Witness for C9's universally quantified part at the aardvark tokens. -/
theorem c9_syllable_count_eq_stress_digit_tokens_witness :
    Phonemes.from_slice ["AA1".toList, "R".toList, "D".toList, "V".toList,
        "AA2".toList, "R".toList, "K".toList] =
      some ⟨["AA1".toList, "R".toList, "D".toList, "V".toList,
             "AA2".toList, "R".toList, "K".toList], 2⟩ := by
  have := c9_syllable_count_eq_stress_digit_tokens.1
    ["AA1".toList, "R".toList, "D".toList, "V".toList,
     "AA2".toList, "R".toList, "K".toList] (by decide)
  rw [this]
  rfl

/-!  Helper lemmas on the normalizer.  -/

/-- Character equality is equality of code points. -/
lemma char_eq_iff_toNat {c d : Char} : c = d ↔ c.toNat = d.toNat := by
  constructor
  · intro h; rw [h]
  · intro h
    apply Char.ext
    exact UInt32.toNat.inj h

/-- Small literal facts about the filter's character classes. -/
lemma removed_curly : isRemovedPunct '’' = false := by decide

/-- The period is not in the unconditionally removed set. -/
lemma removed_dot : isRemovedPunct '.' = false := by decide

/-- The ASCII apostrophe is not in the unconditionally removed set. -/
lemma removed_apos : isRemovedPunct '\'' = false := by decide

/-- ASCII letters and digits survive every arm of the filter: they are
not removed, not the curly apostrophe, and not the period. -/
lemma chIsAlnum_kept {c : Char} (h : chIsAlnum c = true) :
    isRemovedPunct c = false ∧ c ≠ '’' ∧ c ≠ '.' := by
  refine ⟨?_, ?_, ?_⟩
  · by_contra hr
    rw [Bool.not_eq_false] at hr
    simp only [isRemovedPunct, Bool.or_eq_true, decide_eq_true_eq] at hr
    rcases hr with ((((((rfl | rfl) | rfl) | rfl) | rfl) | rfl) | rfl) | rfl <;>
      revert h <;> decide
  · intro heq; rw [heq] at h; revert h; decide
  · intro heq; rw [heq] at h; revert h; decide

/-- With found_period already set, any later letter/digit raises the
has_inner_periods flag. -/
lemma normFilter_flag_of_any_alnum (l : Str) (h : l.any chIsAlnum = true) :
    (normFilter l true).2 = true := by
  induction l with
  | nil => simp at h
  | cons c cs ih =>
    simp only [List.any_cons, Bool.or_eq_true] at h
    by_cases halnum : chIsAlnum c = true
    · obtain ⟨hrp, hq, hd⟩ := chIsAlnum_kept halnum
      simp [normFilter, hrp, hq, hd]
    · have hcs : cs.any chIsAlnum = true := by
        rcases h with h | h
        · exact absurd h halnum
        · exact h
      by_cases hrp : isRemovedPunct c = true
      · simp [normFilter, hrp, ih hcs]
      · by_cases hq : c = '’'
        · simp [normFilter, hrp, hq, removed_curly, ih hcs]
        · by_cases hd : c = '.'
          · simp [normFilter, hrp, hq, hd, removed_dot, ih hcs]
          · simp [normFilter, hrp, hq, hd]

/-- A '.' followed later by a letter/digit makes the filter report inner
periods, whatever the incoming found_period state. -/
lemma normFilter_flag_of_pfa (l : Str) :
    ∀ fp, periodFollowedByAlnum l = true → (normFilter l fp).2 = true := by
  induction l with
  | nil => intro fp h; simp [periodFollowedByAlnum] at h
  | cons c cs ih =>
    intro fp h
    simp only [periodFollowedByAlnum, Bool.or_eq_true, Bool.and_eq_true,
      decide_eq_true_eq] at h
    rcases h with ⟨rfl, hany⟩ | hrec
    · simp [normFilter, removed_dot, normFilter_flag_of_any_alnum cs hany]
    · by_cases hrp : isRemovedPunct c = true
      · simp [normFilter, hrp, ih fp hrec]
      · by_cases hq : c = '’'
        · simp [normFilter, hrp, hq, removed_curly, ih fp hrec]
        · by_cases hd : c = '.'
          · simp [normFilter, hrp, hq, hd, removed_dot, ih true hrec]
          · simp [normFilter, hrp, hq, hd, ih fp hrec]

/-- Characters kept by the filter are never removed punctuation or the
curly apostrophe, and come from the input except for the substituted
ASCII apostrophe. -/
lemma mem_normFilter {c : Char} :
    ∀ (l : Str) (fp : Bool), c ∈ (normFilter l fp).1 →
      isRemovedPunct c = false ∧ c ≠ '’' ∧ (c ∈ l ∨ c = '\'') := by
  intro l
  induction l with
  | nil => intro fp h; simp [normFilter] at h
  | cons d ds ih =>
    intro fp h
    by_cases hrp : isRemovedPunct d = true
    · rw [show normFilter (d :: ds) fp = normFilter ds fp by simp [normFilter, hrp]] at h
      obtain ⟨h1, h2, h3⟩ := ih fp h
      refine ⟨h1, h2, ?_⟩
      rcases h3 with h3 | h3
      · exact Or.inl (by simp [h3])
      · exact Or.inr h3
    · by_cases hq : d = '’'
      · rw [show normFilter (d :: ds) fp =
            ('\'' :: (normFilter ds fp).1, (normFilter ds fp).2) by
          simp [normFilter, hrp, hq, removed_curly]] at h
        rcases List.mem_cons.mp h with rfl | h
        · exact ⟨by decide, by decide, Or.inr rfl⟩
        · obtain ⟨h1, h2, h3⟩ := ih fp h
          refine ⟨h1, h2, ?_⟩
          rcases h3 with h3 | h3
          · exact Or.inl (by simp [h3])
          · exact Or.inr h3
      · by_cases hd : d = '.'
        · rw [show normFilter (d :: ds) fp =
              ('.' :: (normFilter ds true).1, (normFilter ds true).2) by
            simp [normFilter, hrp, hq, hd, removed_dot]] at h
          rcases List.mem_cons.mp h with rfl | h
          · exact ⟨by decide, by decide, Or.inl (by simp [hd])⟩
          · obtain ⟨h1, h2, h3⟩ := ih true h
            refine ⟨h1, h2, ?_⟩
            rcases h3 with h3 | h3
            · exact Or.inl (by simp [h3])
            · exact Or.inr h3
        · rw [show normFilter (d :: ds) fp =
              (d :: (normFilter ds fp).1, (normFilter ds fp).2 || fp) by
            simp [normFilter, hrp, hq, hd, removed_dot]] at h
          rcases List.mem_cons.mp h with rfl | h
          · exact ⟨by simpa using hrp, hq, Or.inl (by simp)⟩
          · obtain ⟨h1, h2, h3⟩ := ih fp h
            refine ⟨h1, h2, ?_⟩
            rcases h3 with h3 | h3
            · exact Or.inl (by simp [h3])
            · exact Or.inr h3

/-- The filter neither creates nor destroys periods. -/
lemma dot_mem_normFilter :
    ∀ (l : Str) (fp : Bool), '.' ∈ (normFilter l fp).1 ↔ '.' ∈ l := by
  intro l
  induction l with
  | nil => intro fp; simp [normFilter]
  | cons d ds ih =>
    intro fp
    by_cases hrp : isRemovedPunct d = true
    · have hdne : d ≠ '.' := by
        intro heq; rw [heq] at hrp; exact absurd hrp (by decide)
      rw [show normFilter (d :: ds) fp = normFilter ds fp by simp [normFilter, hrp]]
      simp [ih fp, Ne.symm hdne]
    · by_cases hq : d = '’'
      · rw [show normFilter (d :: ds) fp =
            ('\'' :: (normFilter ds fp).1, (normFilter ds fp).2) by
          simp [normFilter, hrp, hq, removed_curly]]
        have : d ≠ '.' := by rw [hq]; decide
        simp [ih fp, Ne.symm this]
      · by_cases hd : d = '.'
        · rw [show normFilter (d :: ds) fp =
              ('.' :: (normFilter ds true).1, (normFilter ds true).2) by
            simp [normFilter, hrp, hq, hd, removed_dot]]
          simp [hd]
        · rw [show normFilter (d :: ds) fp =
              (d :: (normFilter ds fp).1, (normFilter ds fp).2 || fp) by
            simp [normFilter, hrp, hq, hd]]
          simp [ih fp, Ne.symm hd, hd]

/-- Lowercasing maps the uppercase range to lowercase and fixes all other
characters; in particular it never produces an uppercase letter and it
fixes '.'. -/
lemma asciiLower_toNat (c : Char) :
    (asciiLower c).toNat =
      if 65 ≤ c.toNat ∧ c.toNat ≤ 90 then c.toNat + 32 else c.toNat := by
  unfold asciiLower
  split
  case isTrue h =>
    unfold Char.ofNat
    rw [dif_pos (Or.inl (by omega))]
    rfl
  case isFalse h => rfl

/-- The lowercased string contains no uppercase ASCII letters. -/
lemma chIsUp_asciiLower (c : Char) : chIsUp (asciiLower c) = false := by
  simp only [chIsUp, Bool.and_eq_false_iff, decide_eq_false_iff_not]
  have := asciiLower_toNat c
  by_cases h : 65 ≤ c.toNat ∧ c.toNat ≤ 90
  · rw [if_pos h] at this; omega
  · rw [if_neg h] at this; omega

/-- Lowercasing fixes the period. -/
lemma asciiLower_eq_dot {c : Char} : asciiLower c = '.' ↔ c = '.' := by
  rw [char_eq_iff_toNat, char_eq_iff_toNat]
  have := asciiLower_toNat c
  show (asciiLower c).toNat = ('.' : Char).toNat ↔ c.toNat = ('.' : Char).toNat
  have hdot : ('.' : Char).toNat = 46 := rfl
  by_cases h : 65 ≤ c.toNat ∧ c.toNat ≤ 90
  · rw [if_pos h] at this; omega
  · rw [if_neg h] at this; omega

/-- Stripping trailing dashes only drops characters. -/
lemma mem_stripTrailingDashes {c : Char} {l : Str}
    (h : c ∈ stripTrailingDashes l) : c ∈ l := by
  unfold stripTrailingDashes at h
  rw [List.mem_reverse] at h
  have := (List.dropWhile_sublist (fun x => decide (x = '-'))).mem h
  rwa [List.mem_reverse] at this

/-- A non-dash character survives the trailing-dash strip. -/
lemma mem_stripTrailingDashes_of_ne {c : Char} {l : Str}
    (hne : c ≠ '-') (h : c ∈ l) : c ∈ stripTrailingDashes l := by
  unfold stripTrailingDashes
  rw [List.mem_reverse]
  rw [← List.mem_reverse] at h
  rw [← List.takeWhile_append_dropWhile (fun x => decide (x = '-')) l.reverse] at h
  rcases List.mem_append.mp h with h | h
  · have := List.mem_takeWhile_imp h
    simp at this
    exact absurd this hne
  · exact h

/-- The trailing-dash strip leaves no trailing dash. -/
lemma getLast?_stripTrailingDashes (l : Str) :
    (stripTrailingDashes l).getLast? ≠ some '-' := by
  unfold stripTrailingDashes
  intro h
  rw [← List.head?_reverse, List.reverse_reverse] at h
  have := List.head?_dropWhile_not (fun x => decide (x = '-')) l.reverse
  rw [h] at this
  simp at this

/-- Without periods in the input and with found_period clear, the filter
never reports inner periods. -/
lemma normFilter_flag_no_dot (l : Str) (hl : '.' ∉ l) :
    (normFilter l false).2 = false := by
  induction l with
  | nil => simp [normFilter]
  | cons c cs ih =>
    have hc : c ≠ '.' := fun heq => hl (by simp [heq])
    have hcs : '.' ∉ cs := fun hmem => hl (by simp [hmem])
    by_cases hrp : isRemovedPunct c = true
    · simpa [normFilter, hrp] using ih hcs
    · by_cases hq : c = '’'
      · simpa [normFilter, hrp, hq, removed_curly] using ih hcs
      · simp [normFilter, hrp, hq, hc, ih hcs]

/-- A run of periods is passed through unchanged by the filter and never
raises the inner-period flag. -/
lemma normFilter_replicate_dot (k : Nat) :
    ∀ fp, normFilter (List.replicate k '.') fp = (List.replicate k '.', false) := by
  induction k with
  | zero => intro fp; simp [normFilter]
  | succ n ih =>
    intro fp
    rw [List.replicate_succ]
    simp [normFilter, removed_dot, ih true]

/-- The filter on a period-free word followed by a run of periods keeps
the word's filtered characters, appends the periods, and reports no
inner periods. -/
lemma normFilter_append_dots (l : Str) (hl : '.' ∉ l) (k : Nat) :
    normFilter (l ++ List.replicate k '.') false =
      ((normFilter l false).1 ++ List.replicate k '.', false) := by
  induction l with
  | nil => simpa [normFilter] using normFilter_replicate_dot k false
  | cons c cs ih =>
    have hc : c ≠ '.' := fun heq => hl (by simp [heq])
    have hcs : '.' ∉ cs := fun hmem => hl (by simp [hmem])
    by_cases hrp : isRemovedPunct c = true
    · simpa [normFilter, hrp] using ih hcs
    · by_cases hq : c = '’'
      · simp [normFilter, hrp, hq, removed_curly, ih hcs]
      · simp [normFilter, hrp, hq, hc, ih hcs, normFilter_flag_no_dot cs hcs]

/-!  Claim C2 (corrected): normalize_for_lookup.  -/

/-- The kept-character sequence of the filter: drop the removed
punctuation set and convert the curly apostrophe, in order, regardless
of the period flag. -/
lemma normFilter_fst_eq : ∀ (l : Str) (b : Bool),
    (normFilter l b).1 =
      (l.filter fun c => !isRemovedPunct c).map
        fun c => if c = '’' then '\'' else c := by
  intro l
  induction l with
  | nil => intro b; rfl
  | cons c cs ih =>
    intro b
    by_cases hrp : isRemovedPunct c = true
    · simp [normFilter, hrp, ih b]
    · by_cases hq : c = '’'
      · subst hq
        simp [normFilter, removed_curly, ih b]
      · by_cases hd : c = '.'
        · subst hd
          simp [normFilter, removed_dot, ih true]
        · simp [normFilter, hrp, hq, hd, ih b]

/-- The inner-period flag of the filter: some default-arm kept character
follows a '.' (or, with the flag seeded, any default-arm character
occurs at all). -/
lemma normFilter_snd_eq : ∀ (l : Str) (b : Bool),
    (normFilter l b).2 = ((b && l.any isDefaultKept) || periodFollowedByKept l) := by
  intro l
  induction l with
  | nil => intro b; simp [normFilter, periodFollowedByKept]
  | cons c cs ih =>
    intro b
    by_cases hrp : isRemovedPunct c = true
    · have hdk : isDefaultKept c = false := by simp [isDefaultKept, hrp]
      have hcd : c ≠ '.' := by
        intro h
        rw [h] at hrp
        exact absurd hrp (by decide)
      simp [normFilter, periodFollowedByKept, hrp, hdk, hcd, ih b]
    · by_cases hq : c = '’'
      · subst hq
        have hdk : isDefaultKept '’' = false := by decide
        simp [normFilter, removed_curly, periodFollowedByKept, hdk, ih b]
      · by_cases hd : c = '.'
        · subst hd
          have hL : (normFilter ('.' :: cs) b).2 = (normFilter cs true).2 := by
            simp [normFilter, removed_dot]
          rw [hL, ih true]
          have hR : periodFollowedByKept ('.' :: cs) =
              (cs.any isDefaultKept || periodFollowedByKept cs) := by
            simp [periodFollowedByKept]
          rw [hR]
          have hany : ('.' :: cs).any isDefaultKept = cs.any isDefaultKept := by
            simp [isDefaultKept]
          rw [hany]
          cases b <;> cases hx : cs.any isDefaultKept <;> simp [hx]
        · have hdk : isDefaultKept c = true := by
            simp [isDefaultKept, hrp, hq, hd]
          have hL : (normFilter (c :: cs) b).2 = ((normFilter cs b).2 || b) := by
            simp [normFilter, hrp, hq, hd]
          rw [hL, ih b]
          have hR : periodFollowedByKept (c :: cs) = periodFollowedByKept cs := by
            simp [periodFollowedByKept, hd]
          rw [hR]
          have hany : (c :: cs).any isDefaultKept = true := by simp [hdk]
          rw [hany]
          cases b <;> simp

/-- C2 counterexample: on "p.-." no letter or digit follows any period,
so the claim requires the trailing period stripped; the code keeps the
whole word unchanged, because the '-' after the first period already
sets has_inner_periods. -/
theorem c2_normalize_inner_period_counterexample :
    periodFollowedByAlnum ("p.-.".toList.map asciiLower) = false ∧
    normalizeString "p.-." = "p.-." ∧
    (normalize_for_lookup "p.-.".toList).getLast? = some '.' := by
  decide

/-- C2 (amended): normalize_for_lookup lower-cases, removes the
punctuation set, converts the curly apostrophe to ASCII ' (the kept
sequence is exactly normKept), and strips trailing dashes; it keeps all
of the word's periods exactly when some default-arm kept character
(any kept character other than '.' and the curly apostrophe — not only
a letter or digit) follows a '.' somewhere in the word, and otherwise
removes every period.  The four spec examples hold, the output carries
no removed punctuation, no curly apostrophe and no uppercase ASCII
letter, and it never ends in a dash. -/
theorem c2_normalize_for_lookup_amended :
    (normalizeString "A.M." = "a.m." ∧
     normalizeString "found..." = "found" ∧
     normalizeString "well-contented" = "well-contented" ∧
     normalizeString "pen--" = "pen") ∧
    (∀ w : Str, ∀ c ∈ normalize_for_lookup w,
        isRemovedPunct c = false ∧ c ≠ '’' ∧ chIsUp c = false) ∧
    (∀ w : Str, (normalize_for_lookup w).getLast? ≠ some '-') ∧
    (∀ w : Str, normalize_for_lookup w =
        stripTrailingDashes
          (if periodFollowedByKept (w.map asciiLower) = true then normKept w
           else (normKept w).filter (· ≠ '.'))) ∧
    (∀ w : Str, periodFollowedByKept (w.map asciiLower) = false →
        '.' ∉ normalize_for_lookup w) ∧
    (∀ w : Str, periodFollowedByKept (w.map asciiLower) = true →
        ('.' ∈ normalize_for_lookup w ↔ '.' ∈ w)) := by
  have hformula : ∀ w : Str, normalize_for_lookup w =
      stripTrailingDashes
        (if periodFollowedByKept (w.map asciiLower) = true then normKept w
         else (normKept w).filter (· ≠ '.')) := by
    intro w
    unfold normalize_for_lookup
    rw [normFilter_snd_eq (w.map asciiLower) false, Bool.false_and, Bool.false_or,
      normFilter_fst_eq (w.map asciiLower) false]
    rfl
  refine ⟨⟨by decide, by decide, by decide, by decide⟩, ?_, ?_, hformula, ?_, ?_⟩
  · intro w c hc
    unfold normalize_for_lookup at hc
    have hmem := mem_stripTrailingDashes hc
    have hfr : c ∈ (normFilter (w.map asciiLower) false).1 := by
      by_cases h2 : (normFilter (w.map asciiLower) false).2 = true
      · rwa [if_pos h2] at hmem
      · rw [if_neg h2] at hmem
        exact (List.mem_filter.mp hmem).1
    obtain ⟨h1, h2, h3⟩ := mem_normFilter _ _ hfr
    refine ⟨h1, h2, ?_⟩
    rcases h3 with h3 | h3
    · obtain ⟨x, _, rfl⟩ := List.mem_map.mp h3
      exact chIsUp_asciiLower x
    · rw [h3]; decide
  · intro w
    unfold normalize_for_lookup
    exact getLast?_stripTrailingDashes _
  · intro w hpfk
    rw [hformula w, if_neg (by simp [hpfk])]
    intro hmem
    have h1 := mem_stripTrailingDashes hmem
    have h2 := List.mem_filter.mp h1
    simp at h2
  · intro w hpfk
    have hflag : (normFilter (w.map asciiLower) false).2 = true := by
      rw [normFilter_snd_eq]
      simp [hpfk]
    unfold normalize_for_lookup
    rw [hflag, if_pos rfl]
    constructor
    · intro h
      have h1 := mem_stripTrailingDashes h
      have h2 := (dot_mem_normFilter _ _).mp h1
      obtain ⟨x, hx, hlx⟩ := List.mem_map.mp h2
      rwa [asciiLower_eq_dot.mp hlx] at hx
    · intro h
      apply mem_stripTrailingDashes_of_ne (by decide)
      rw [dot_mem_normFilter]
      exact List.mem_map.mpr ⟨'.', h, by decide⟩

/-- Witness for the hypothesised parts of the amended C2: the hyphen
after the first period of "p.-." keeps its periods, and "found..." (no
kept character after a period) loses every period. -/
theorem c2_normalize_for_lookup_amended_witness :
    (periodFollowedByKept ("p.-.".toList.map asciiLower) = true ∧
      ('.' ∈ normalize_for_lookup "p.-.".toList ↔ '.' ∈ "p.-.".toList)) ∧
    (periodFollowedByKept ("found...".toList.map asciiLower) = false ∧
      '.' ∉ normalize_for_lookup "found...".toList) :=
  ⟨⟨by decide,
    c2_normalize_for_lookup_amended.2.2.2.2.2 "p.-.".toList (by decide)⟩,
   ⟨by decide,
    c2_normalize_for_lookup_amended.2.2.2.2.1 "found...".toList (by decide)⟩⟩

end Poet

namespace Poet

/-!  Helper lemmas on the classifiers.  -/

/-- The per-line syllable check returns ok or a single line error. -/
lemma check_line_error_ne_nil (v : LineView) (e : Nat) :
    ∀ l, check_line_has_num_syllables v e = .error l → l ≠ [] := by
  intro l h
  unfold check_line_has_num_syllables at h
  split_ifs at h <;> cases h <;> simp

/-- The rhyme check returns ok or a nonempty error list. -/
lemma check_rhyme_error_ne_nil (a b : LineView) :
    ∀ l, check_lines_rhyme a b = .error l → l ≠ [] := by
  intro l h
  rcases ha : a.last_entry with _ | ea
  · simp [check_lines_rhyme, ha] at h
  · rcases hb : b.last_entry with _ | eb
    · simp [check_lines_rhyme, ha, hb] at h
    · by_cases hr : ea.rhymes_with eb = true
      · simp [check_lines_rhyme, ha, hb, hr] at h
      · simp [check_lines_rhyme, ha, hb, hr] at h
        rw [← h]
        simp

/-- errList is empty exactly on success, provided the check never
produces an empty error list. -/
lemma errList_nil_iff {r : Except (List ClassifyError) Unit}
    (hne : ∀ l, r = .error l → l ≠ []) : errList r = [] ↔ r = .ok () := by
  cases r with
  | ok u => cases u; simp [errList]
  | error l =>
    simp only [errList]
    constructor
    · intro h; exact absurd h (hne l rfl)
    · intro h; cases h

/-- An accumulate-then-test tail returns ok iff no errors accumulated. -/
lemma ite_errors_ok (errs : List ClassifyError) :
    ((if errs.isEmpty then Except.ok () else Except.error errs) =
      (Except.ok () : Except (List ClassifyError) Unit)) ↔ errs = [] := by
  cases herr : errs with
  | nil => simp
  | cons e es => simp

end Poet

namespace Poet

/-!  Claim C8 (confirmed): conservatism of the checks.  -/

/-- C8: the per-line syllable check fails exactly when either the line
has no unknown words and its count differs from the expected count, or it
has unknown words and its known syllables already meet or exceed the
expected count; and the rhyme check accepts whenever either line's last
token has no dictionary entry. -/
theorem c8_checks_conservative_on_unknown_words :
    (∀ (v : LineView) (expected : Nat),
        (∃ e, check_line_has_num_syllables v expected = .error e) ↔
          ((v.has_unknown_words = false ∧ v.num_syllables ≠ expected) ∨
           (v.has_unknown_words = true ∧ expected ≤ v.num_syllables))) ∧
    (∀ a b : LineView, (a.last_entry = none ∨ b.last_entry = none) →
        check_lines_rhyme a b = .ok ()) := by
  constructor
  · intro v expected
    unfold check_line_has_num_syllables
    by_cases hu : v.has_unknown_words
    · by_cases hge : v.num_syllables ≥ expected
      · simp [hu, hge]
      · simp [hu, hge]
    · by_cases hne : v.num_syllables ≠ expected
      · simp [hu, hne]
      · simp [hu, hne]
  · intro a b h
    rcases h with h | h
    · simp [check_lines_rhyme, h]
    · rcases ha : a.last_entry with _ | ea
      · simp [check_lines_rhyme, ha]
      · simp [check_lines_rhyme, ha, h]

/-- Witness for C8 at concrete line views: a known 1-syllable line
checked against 2 fails, and a rhyme check with an unknown last word is
accepted. -/
theorem c8_checks_conservative_on_unknown_words_witness :
    (∃ e, check_line_has_num_syllables
        ⟨⟨"a".toList, 1, 0,
          [⟨"a".toList, some [⟨"a".toList, ⟨["AH0".toList], 1⟩, 1⟩]⟩]⟩, [0]⟩ 2 =
          .error e) ∧
    check_lines_rhyme
        ⟨⟨"x".toList, 1, 0, [⟨"x".toList, none⟩]⟩, [0]⟩
        ⟨⟨"x".toList, 2, 1, [⟨"x".toList, none⟩]⟩, [0]⟩ = .ok () := by
  constructor
  · exact (c8_checks_conservative_on_unknown_words.1 _ 2).mpr (by decide)
  · exact c8_checks_conservative_on_unknown_words.2 _ _ (Or.inl (by decide))

end Poet

namespace Poet

/-!  Claim C10 (confirmed): the classifiers' concrete per-line targets.  -/

/-- C10: on a three-line view, the haiku classifier succeeds exactly when
the per-line syllable checks at the expected counts 5, 7, 5 (in that
order) all succeed; on a fourteen-line view, the Shakespearean-sonnet
classifier succeeds exactly when every line passes the syllable check at
expected count 10 and every fixed rhyme pair passes the rhyme check. -/
theorem c10_classifier_line_targets :
    (∀ l0 l1 l2 : LineView,
        is_haiku ⟨[l0, l1, l2]⟩ = .ok () ↔
          (check_line_has_num_syllables l0 5 = .ok () ∧
           check_line_has_num_syllables l1 7 = .ok () ∧
           check_line_has_num_syllables l2 5 = .ok ())) ∧
    (∀ v : StanzaView, v.lines.length = 14 →
        (is_shakespearean_sonnet v = .ok () ↔
          ((∀ l ∈ v.lines, check_line_has_num_syllables l 10 = .ok ()) ∧
           (∀ p ∈ rhyming_lines,
              check_lines_rhyme (v.lines.getD p.1 default)
                (v.lines.getD p.2 default) = .ok ())))) := by
  constructor
  · intro l0 l1 l2
    show (match check_stanza_has_num_lines ⟨[l0, l1, l2]⟩ 3 with
      | Except.error e => Except.error e
      | Except.ok _ => _) = _ ↔ _
    rw [show check_stanza_has_num_lines ⟨[l0, l1, l2]⟩ 3 = .ok () by
      simp [check_stanza_has_num_lines, StanzaView.num_lines]]
    show (if _ then _ else _) = _ ↔ _
    rw [ite_errors_ok]
    show errList (check_line_has_num_syllables l0 5) ++
        (errList (check_line_has_num_syllables l1 7) ++
          (errList (check_line_has_num_syllables l2 5) ++ [])) = [] ↔ _
    rw [List.append_nil]
    simp only [List.append_eq_nil]
    rw [errList_nil_iff (check_line_error_ne_nil l0 5),
      errList_nil_iff (check_line_error_ne_nil l1 7),
      errList_nil_iff (check_line_error_ne_nil l2 5)]
  · intro v hlen
    show (match check_stanza_has_num_lines v 14 with
      | Except.error e => Except.error e
      | Except.ok _ => _) = _ ↔ _
    rw [show check_stanza_has_num_lines v 14 = .ok () by
      simp [check_stanza_has_num_lines, StanzaView.num_lines, hlen]]
    show (if _ then _ else _) = _ ↔ _
    rw [ite_errors_ok, List.append_eq_nil]
    constructor
    · intro ⟨h1, h2⟩
      constructor
      · intro l hl
        rw [List.flatten_eq_nil_iff] at h1
        have := h1 (errList (check_line_has_num_syllables l 10))
          (List.mem_map.mpr ⟨l, hl, rfl⟩)
        exact (errList_nil_iff (check_line_error_ne_nil l 10)).mp this
      · intro p hp
        rw [List.flatten_eq_nil_iff] at h2
        have := h2 (errList (check_lines_rhyme (v.lines.getD p.1 default)
            (v.lines.getD p.2 default)))
          (List.mem_map.mpr ⟨p, hp, rfl⟩)
        exact (errList_nil_iff (check_rhyme_error_ne_nil _ _)).mp this
    · intro ⟨h1, h2⟩
      constructor
      · rw [List.flatten_eq_nil_iff]
        intro l hl
        obtain ⟨x, hx, rfl⟩ := List.mem_map.mp hl
        exact (errList_nil_iff (check_line_error_ne_nil x 10)).mpr (h1 x hx)
      · rw [List.flatten_eq_nil_iff]
        intro l hl
        obtain ⟨p, hp, rfl⟩ := List.mem_map.mp hl
        exact (errList_nil_iff (check_rhyme_error_ne_nil _ _)).mpr (h2 p hp)

/-- Witness for C10: a concrete 5-7-5 stanza of one-syllable known words
is a haiku, and a concrete 14-line, 10-syllable-per-line stanza whose
line-final words all share their last syllable is a sonnet. -/
theorem c10_classifier_line_targets_witness :
    (is_haiku ⟨[mkWitnessLine 1 0 5, mkWitnessLine 2 1 7, mkWitnessLine 3 2 5]⟩ =
      .ok ()) ∧
    (is_shakespearean_sonnet
        ⟨(List.range 14).map fun i => mkWitnessLine (i + 1) i 10⟩ = .ok ()) := by
  constructor
  · exact (c10_classifier_line_targets.1 _ _ _).mpr ⟨by decide, by decide, by decide⟩
  · refine (c10_classifier_line_targets.2 _ (by decide)).mpr ⟨?_, ?_⟩
    · decide
    · decide

end Poet

namespace Poet

/-!  Helper lemmas on stanza construction.  -/

/-- raw_text of a constructed line is the (trimmed) input line. -/
lemma raw_text_new_from_line (raw : Str) (n idx : Nat) (dict : DictionaryImpl) :
    (Line.new_from_line raw n idx dict).raw_text = raw := rfl

/-- The builder loop produces exactly the spec's titled blocks, as
stanza shapes. -/
lemma gsLoop_shape (dict : DictionaryImpl) :
    ∀ (ls : List Str) (n : Nat) (cur : List Line) (cand : Option Str),
      (gsLoop dict ls n cur cand).map stanzaShape =
        specTitled cand (specBlocksGo (cur.map (·.raw_text)) ls) := by
  intro ls
  induction ls with
  | nil =>
    intro n cur cand
    cases cur with
    | nil => simp [gsLoop, specBlocksGo, specTitled]
    | cons a as =>
      cases as with
      | nil => simp [gsLoop, specBlocksGo, specTitled, stanzaShape]
      | cons b bs =>
        simp [gsLoop, specBlocksGo, specTitled, stanzaShape]
  | cons raw rest ih =>
    intro n cur cand
    by_cases hc : (trimStr raw).head? = some '#'
    · rw [show gsLoop dict (raw :: rest) n cur cand =
          gsLoop dict rest (n + 1) cur cand by simp [gsLoop, hc]]
      rw [show specBlocksGo (cur.map (·.raw_text)) (raw :: rest) =
          specBlocksGo (cur.map (·.raw_text)) rest by simp [specBlocksGo, hc]]
      exact ih (n + 1) cur cand
    · by_cases hb : (trimStr raw).isEmpty
      · cases cur with
        | nil =>
          rw [show gsLoop dict (raw :: rest) n [] cand =
              gsLoop dict rest (n + 1) [] cand by simp [gsLoop, hc, hb]]
          rw [show specBlocksGo (([] : List Line).map (·.raw_text)) (raw :: rest) =
              specBlocksGo [] rest by simp [specBlocksGo, hc, hb]]
          exact ih (n + 1) [] cand
        | cons x xs =>
          cases xs with
          | nil =>
            rw [show gsLoop dict (raw :: rest) n [x] cand =
                gsLoop dict rest (n + 1) [] (some x.raw_text) by
              simp [gsLoop, hc, hb]]
            rw [show specBlocksGo ([x].map (·.raw_text)) (raw :: rest) =
                [x.raw_text] :: specBlocksGo [] rest by simp [specBlocksGo, hc, hb]]
            rw [show specTitled cand ([x.raw_text] :: specBlocksGo [] rest) =
                specTitled (some x.raw_text) (specBlocksGo [] rest) by
              simp [specTitled]]
            exact ih (n + 1) [] (some x.raw_text)
          | cons y ys =>
            rw [show gsLoop dict (raw :: rest) n (x :: y :: ys) cand =
                ⟨x :: y :: ys, cand⟩ :: gsLoop dict rest (n + 1) [] none by
              simp [gsLoop, hc, hb]]
            rw [show specBlocksGo ((x :: y :: ys).map (·.raw_text)) (raw :: rest) =
                ((x :: y :: ys).map (·.raw_text)) :: specBlocksGo [] rest by
              simp [specBlocksGo, hc, hb]]
            rw [show specTitled cand
                  (((x :: y :: ys).map (·.raw_text)) :: specBlocksGo [] rest) =
                (cand, (x :: y :: ys).map (·.raw_text)) ::
                  specTitled none (specBlocksGo [] rest) by
              simp [specTitled]]
            rw [List.map_cons]
            rw [ih (n + 1) [] none]
            rfl
      · rw [show gsLoop dict (raw :: rest) n cur cand =
            gsLoop dict rest (n + 1)
              (cur ++ [Line.new_from_line (trimStr raw) (n + 1) cur.length dict])
              cand by simp [gsLoop, hc, hb]]
        rw [show specBlocksGo (cur.map (·.raw_text)) (raw :: rest) =
            specBlocksGo (cur.map (·.raw_text) ++ [trimStr raw]) rest by
          simp [specBlocksGo, hc, hb]]
        rw [show cur.map (·.raw_text) ++ [trimStr raw] =
            (cur ++ [Line.new_from_line (trimStr raw) (n + 1) cur.length dict]).map
              (·.raw_text) by simp [Line.new_from_line]]
        exact ih (n + 1) _ cand

/-- Every stanza the builder loop emits has at least two lines. -/
lemma gsLoop_min_lines (dict : DictionaryImpl) :
    ∀ (ls : List Str) (n : Nat) (cur : List Line) (cand : Option Str),
      ∀ s ∈ gsLoop dict ls n cur cand, 2 ≤ s.lines.length := by
  intro ls
  induction ls with
  | nil =>
    intro n cur cand s hs
    unfold gsLoop at hs
    by_cases h2 : 2 ≤ cur.length
    · rw [if_pos h2] at hs
      rcases List.mem_singleton.mp hs with rfl
      exact h2
    · rw [if_neg h2] at hs
      cases hs
  | cons raw rest ih =>
    intro n cur cand s hs
    by_cases hc : (trimStr raw).head? = some '#'
    · rw [show gsLoop dict (raw :: rest) n cur cand =
          gsLoop dict rest (n + 1) cur cand by simp [gsLoop, hc]] at hs
      exact ih (n + 1) cur cand s hs
    · by_cases hb : (trimStr raw).isEmpty
      · cases cur with
        | nil =>
          rw [show gsLoop dict (raw :: rest) n [] cand =
              gsLoop dict rest (n + 1) [] cand by simp [gsLoop, hc, hb]] at hs
          exact ih (n + 1) [] cand s hs
        | cons x xs =>
          cases xs with
          | nil =>
            rw [show gsLoop dict (raw :: rest) n [x] cand =
                gsLoop dict rest (n + 1) [] (some x.raw_text) by
              simp [gsLoop, hc, hb]] at hs
            exact ih (n + 1) [] _ s hs
          | cons y ys =>
            rw [show gsLoop dict (raw :: rest) n (x :: y :: ys) cand =
                ⟨x :: y :: ys, cand⟩ :: gsLoop dict rest (n + 1) [] none by
              simp [gsLoop, hc, hb]] at hs
            rcases List.mem_cons.mp hs with rfl | hs
            · simp
            · exact ih (n + 1) [] none s hs
      · rw [show gsLoop dict (raw :: rest) n cur cand =
            gsLoop dict rest (n + 1)
              (cur ++ [Line.new_from_line (trimStr raw) (n + 1) cur.length dict])
              cand by simp [gsLoop, hc, hb]] at hs
        exact ih (n + 1) _ cand s hs

end Poet

namespace Poet

/-!  Claim C7 (confirmed): stanza boundary parsing.  -/

/-- C7: stanza construction realizes the spec's block decomposition —
lines starting with '#' are skipped entirely, blank lines separate
blocks (runs of consecutive blanks create no stanza), only blocks of at
least two lines are emitted, and a block's title is the pending
single-line candidate exactly as specTitled describes (set by a one-line
block, superseded by a later one-line block, consumed by the next
multi-line block, discarded at the end); furthermore every emitted
stanza has at least two lines. -/
theorem c7_stanza_block_structure (dict : DictionaryImpl) (input : List Str) :
    ((get_stanzas_from_text input dict).map stanzaShape =
      specTitled none (specBlocks input)) ∧
    (∀ s ∈ get_stanzas_from_text input dict, 2 ≤ s.lines.length) := by
  constructor
  · have := gsLoop_shape dict input 0 [] none
    simpa [get_stanzas_from_text, specBlocks] using this
  · intro s hs
    exact gsLoop_min_lines dict input 0 [] none s hs

/-- Witness for C7's membership-hypothesis part at a concrete two-line
text against the empty dictionary. -/
theorem c7_stanza_block_structure_witness :
    (⟨[⟨"a".toList, 1, 0, [⟨"a".toList, none⟩]⟩,
       ⟨"b".toList, 2, 1, [⟨"b".toList, none⟩]⟩], none⟩ : Stanza) ∈
      get_stanzas_from_text ["a".toList, "b".toList] DictionaryImpl.new ∧
    2 ≤ (⟨[⟨"a".toList, 1, 0, [⟨"a".toList, none⟩]⟩,
           ⟨"b".toList, 2, 1, [⟨"b".toList, none⟩]⟩], none⟩ : Stanza).lines.length := by
  refine ⟨by decide, ?_⟩
  exact (c7_stanza_block_structure DictionaryImpl.new
    ["a".toList, "b".toList]).2 _ (by decide)

end Poet

namespace Poet

/-!  Mixed-radix odometer lemmas.  -/

/-- The all-zero digit list is in bounds when every radix is positive. -/
lemma digitsWF_zeros (rs : List Nat) (h : ∀ r ∈ rs, 0 < r) :
    digitsWF rs (rs.map fun _ => 0) := by
  induction rs with
  | nil => exact List.Forall₂.nil
  | cons r rs ih =>
    exact List.Forall₂.cons (h r (by simp)) (ih fun x hx => h x (by simp [hx]))

/-- The value of the all-zero digit list is zero. -/
lemma odomVal_zeros (rs : List Nat) : odomVal rs (rs.map fun _ => 0) = 0 := by
  induction rs with
  | nil => rfl
  | cons r rs ih => simp only [List.map_cons, odomVal, ih, Nat.zero_mul, Nat.add_zero]

/-- Every in-bounds digit list has value below the radix product. -/
lemma odomVal_lt {rs ds : List Nat} (h : digitsWF rs ds) :
    odomVal rs ds < rs.prod := by
  induction h with
  | nil => simp [odomVal]
  | @cons r d rs ds hrd _ ih =>
    simp only [odomVal, List.prod_cons]
    calc d * rs.prod + odomVal rs ds < d * rs.prod + rs.prod :=
          Nat.add_lt_add_left ih _
      _ = (d + 1) * rs.prod := by ring
      _ ≤ r * rs.prod := Nat.mul_le_mul_right _ hrd

/-- The odometer increment keeps digits in bounds. -/
lemma odomInc_wf {rs ds : List Nat} (h : digitsWF rs ds) :
    digitsWF rs (odomInc rs ds).1 := by
  induction h with
  | nil => exact List.Forall₂.nil
  | @cons r d rs ds hrd htail ih =>
    show digitsWF (r :: rs) (odomInc (r :: rs) (d :: ds)).1
    simp only [odomInc]
    by_cases hc : (odomInc rs ds).2 = true
    · simp only [hc, Bool.not_true, Bool.false_eq_true, if_false]
      by_cases hr : d + 1 = r
      · simp only [hr, if_pos rfl]
        exact List.Forall₂.cons (by omega) ih
      · simp only [if_neg hr]
        exact List.Forall₂.cons (by omega) ih
    · simp only [Bool.not_eq_true] at hc
      simp only [hc, Bool.not_false, if_true]
      exact List.Forall₂.cons hrd ih

/-- A rolling increment happens exactly at the maximal value and resets
the digits to zero. -/
lemma odomInc_true {rs ds : List Nat} (h : digitsWF rs ds) :
    (odomInc rs ds).2 = true →
      (odomInc rs ds).1 = (rs.map fun _ => 0) ∧ odomVal rs ds + 1 = rs.prod := by
  induction h with
  | nil => intro _; simp [odomInc, odomVal]
  | @cons r d rs ds hrd htail ih =>
    intro hc
    by_cases ht : (odomInc rs ds).2 = true
    · have htrue := ih ht
      simp only [odomInc, ht, Bool.not_true, Bool.false_eq_true, if_false] at hc ⊢
      by_cases hr : d + 1 = r
      · simp only [hr, if_pos rfl]
        constructor
        · simp [htrue.1]
        · simp only [odomVal, List.prod_cons]
          have hv : odomVal rs ds + 1 = rs.prod := htrue.2
          calc d * rs.prod + odomVal rs ds + 1 = d * rs.prod + (odomVal rs ds + 1) := by ring
            _ = d * rs.prod + rs.prod := by rw [hv]
            _ = (d + 1) * rs.prod := by ring
            _ = r * rs.prod := by rw [hr]
      · simp [hr] at hc
    · simp only [Bool.not_eq_true] at ht
      simp only [odomInc, ht, Bool.not_false, if_true] at hc
      cases hc

/-- A non-rolling increment adds one to the value. -/
lemma odomInc_false {rs ds : List Nat} (h : digitsWF rs ds) :
    (odomInc rs ds).2 = false → odomVal rs (odomInc rs ds).1 = odomVal rs ds + 1 := by
  induction h with
  | nil => intro hc; simp [odomInc] at hc
  | @cons r d rs ds hrd htail ih =>
    intro hc
    by_cases ht : (odomInc rs ds).2 = true
    · -- tail rolled; this digit advanced (or the whole thing rolled)
      have htrue := odomInc_true htail ht
      simp only [odomInc, ht, Bool.not_true, Bool.false_eq_true, if_false] at hc ⊢
      by_cases hr : d + 1 = r
      · simp [hr] at hc
      · simp only [if_neg hr] at hc ⊢
        simp only [odomVal]
        rw [htrue.1, odomVal_zeros]
        have hv : odomVal rs ds + 1 = rs.prod := htrue.2
        have hlt : odomVal rs ds < rs.prod := odomVal_lt htail
        calc (d + 1) * rs.prod + 0 = d * rs.prod + rs.prod := by ring
          _ = d * rs.prod + (odomVal rs ds + 1) := by rw [hv]
          _ = d * rs.prod + odomVal rs ds + 1 := by ring
    · simp only [Bool.not_eq_true] at ht
      simp only [odomInc, ht, Bool.not_false, if_true] at hc ⊢
      simp only [odomVal]
      rw [ih ht]
      ring

end Poet

namespace Poet

/-- Values determine in-bounds digit lists uniquely. -/
lemma odomVal_inj {rs : List Nat} :
    ∀ {ds ds' : List Nat}, digitsWF rs ds → digitsWF rs ds' →
      odomVal rs ds = odomVal rs ds' → ds = ds' := by
  induction rs with
  | nil =>
    intro ds ds' h h' _
    unfold digitsWF at h h'
    rw [List.forall₂_nil_left_iff] at h h'
    rw [h, h']
  | cons r rs ih =>
    intro ds ds' h h' heq
    unfold digitsWF at h h'
    rw [List.forall₂_cons_left_iff] at h h'
    obtain ⟨d, dsa, hrd, htail, rfl⟩ := h
    obtain ⟨d', dsb, hrd', htail', rfl⟩ := h'
    have hva : odomVal rs dsa < rs.prod := odomVal_lt htail
    have hvb : odomVal rs dsb < rs.prod := odomVal_lt htail'
    have hP : 0 < rs.prod := Nat.pos_of_ne_zero (by omega)
    simp only [odomVal] at heq
    have hda : (rs.prod * d + odomVal rs dsa) / rs.prod = d := by
      rw [Nat.mul_add_div hP, Nat.div_eq_of_lt hva, Nat.add_zero]
    have hdb : (rs.prod * d' + odomVal rs dsb) / rs.prod = d' := by
      rw [Nat.mul_add_div hP, Nat.div_eq_of_lt hvb, Nat.add_zero]
    have hdd : d = d' := by
      rw [← hda, ← hdb, Nat.mul_comm rs.prod d, Nat.mul_comm rs.prod d', heq]
    subst hdd
    have hvv : odomVal rs dsa = odomVal rs dsb := by
      exact Nat.add_left_cancel heq
    rw [ih htail htail' hvv]

/-- The digit list of a value below the radix product is in bounds. -/
lemma odomDigits_wf : ∀ (rs : List Nat) (n : Nat), n < rs.prod →
    digitsWF rs (odomDigits rs n) := by
  intro rs
  induction rs with
  | nil => intro n h; exact List.Forall₂.nil
  | cons r rs ih =>
    intro n h
    rw [List.prod_cons] at h
    have hP : 0 < rs.prod := Nat.pos_of_ne_zero (by intro hz; rw [hz] at h; omega)
    refine List.Forall₂.cons ?_ (ih _ (Nat.mod_lt _ hP))
    exact Nat.div_lt_iff_lt_mul hP |>.mpr h

/-- Value of the digit list of a value. -/
lemma odomVal_odomDigits : ∀ (rs : List Nat) (n : Nat), n < rs.prod →
    odomVal rs (odomDigits rs n) = n := by
  intro rs
  induction rs with
  | nil => intro n h; simp [List.prod_nil] at h; simp [odomDigits, odomVal, h]
  | cons r rs ih =>
    intro n h
    rw [List.prod_cons] at h
    have hP : 0 < rs.prod := Nat.pos_of_ne_zero (by intro hz; rw [hz] at h; omega)
    simp only [odomDigits, odomVal]
    rw [ih _ (Nat.mod_lt _ hP)]
    calc n / rs.prod * rs.prod + n % rs.prod
        = rs.prod * (n / rs.prod) + n % rs.prod := by ring
      _ = n := Nat.div_add_mod n rs.prod

/-!  Stanza-level odometer lemmas (chained over the lines).  -/

/-- sProd unfolds over a cons. -/
lemma sProd_cons (rs : List Nat) (rss : List (List Nat)) :
    sProd (rs :: rss) = rs.prod * sProd rss := by
  simp [sProd]

/-- The all-zero stanza digits are in bounds for positive radices. -/
lemma stanzaWF_zeros (rss : List (List Nat)) (h : ∀ rs ∈ rss, ∀ r ∈ rs, 0 < r) :
    stanzaWF rss (rss.map fun rs => rs.map fun _ => 0) := by
  induction rss with
  | nil => exact List.Forall₂.nil
  | cons rs rss ih =>
    exact List.Forall₂.cons (digitsWF_zeros rs (h rs (by simp)))
      (ih fun x hx => h x (by simp [hx]))

/-- The all-zero stanza digits have value zero. -/
lemma sVal_zeros (rss : List (List Nat)) :
    sVal rss (rss.map fun rs => rs.map fun _ => 0) = 0 := by
  induction rss with
  | nil => rfl
  | cons rs rss ih =>
    simp only [List.map_cons, sVal, ih, odomVal_zeros, Nat.mul_zero, Nat.add_zero]

/-- Every in-bounds stanza digit assignment has value below sProd. -/
lemma sVal_lt {rss dss : List (List Nat)} (h : stanzaWF rss dss) :
    sVal rss dss < sProd rss := by
  induction h with
  | nil => simp [sVal, sProd]
  | @cons rs ds rss dss hrd _ ih =>
    rw [sProd_cons]
    simp only [sVal]
    have h1 : odomVal rs ds < rs.prod := odomVal_lt hrd
    have h2 : 0 < rs.prod := Nat.pos_of_ne_zero (by omega)
    calc odomVal rs ds + rs.prod * sVal rss dss
        < rs.prod + rs.prod * sVal rss dss := by omega
      _ = rs.prod * (sVal rss dss + 1) := by ring
      _ ≤ rs.prod * sProd rss := Nat.mul_le_mul_left _ (by omega)

/-- The stanza increment keeps digits in bounds. -/
lemma sInc_wf {rss dss : List (List Nat)} (h : stanzaWF rss dss) :
    stanzaWF rss (sInc rss dss).1 := by
  induction h with
  | nil => exact List.Forall₂.nil
  | @cons rs ds rss dss hrd htail ih =>
    show stanzaWF (rs :: rss) (sInc (rs :: rss) (ds :: dss)).1
    simp only [sInc]
    by_cases hc : (odomInc rs ds).2 = true
    · simp only [hc, Bool.not_true, Bool.false_eq_true, if_false]
      exact List.Forall₂.cons (odomInc_wf hrd) ih
    · simp only [Bool.not_eq_true] at hc
      simp only [hc, Bool.not_false, if_true]
      exact List.Forall₂.cons (odomInc_wf hrd) htail

/-- A rolling stanza increment happens exactly at the maximal value and
resets all lines to zero. -/
lemma sInc_true {rss dss : List (List Nat)} (h : stanzaWF rss dss) :
    (sInc rss dss).2 = true →
      (sInc rss dss).1 = (rss.map fun rs => rs.map fun _ => 0) ∧
      sVal rss dss + 1 = sProd rss := by
  induction h with
  | nil => intro _; simp [sInc, sVal, sProd]
  | @cons rs ds rss dss hrd htail ih =>
    intro hc
    by_cases ht : (odomInc rs ds).2 = true
    · have h1 := odomInc_true hrd ht
      simp only [sInc, ht, Bool.not_true, Bool.false_eq_true, if_false] at hc ⊢
      have h2 := ih hc
      constructor
      · simp only [List.map_cons]
        rw [h1.1, h2.1]
      · rw [sProd_cons]
        simp only [sVal]
        have hv1 : odomVal rs ds + 1 = rs.prod := h1.2
        have hv2 : sVal rss dss + 1 = sProd rss := h2.2
        calc odomVal rs ds + rs.prod * sVal rss dss + 1
            = (odomVal rs ds + 1) + rs.prod * sVal rss dss := by ring
          _ = rs.prod + rs.prod * sVal rss dss := by rw [hv1]
          _ = rs.prod * (sVal rss dss + 1) := by ring
          _ = rs.prod * sProd rss := by rw [hv2]
    · simp only [Bool.not_eq_true] at ht
      simp only [sInc, ht, Bool.not_false, if_true] at hc
      cases hc

/-- A non-rolling stanza increment adds one to the value. -/
lemma sInc_false {rss dss : List (List Nat)} (h : stanzaWF rss dss) :
    (sInc rss dss).2 = false →
      sVal rss (sInc rss dss).1 = sVal rss dss + 1 := by
  induction h with
  | nil => intro hc; simp [sInc] at hc
  | @cons rs ds rss dss hrd htail ih =>
    intro hc
    by_cases ht : (odomInc rs ds).2 = true
    · have h1 := odomInc_true hrd ht
      simp only [sInc, ht, Bool.not_true, Bool.false_eq_true, if_false] at hc ⊢
      have h2 := ih hc
      simp only [sVal]
      rw [h1.1, odomVal_zeros]
      have hv1 : odomVal rs ds + 1 = rs.prod := h1.2
      calc 0 + rs.prod * sVal rss (sInc rss dss).1
          = rs.prod * (sVal rss dss + 1) := by rw [h2]; ring
        _ = rs.prod * sVal rss dss + rs.prod := by ring
        _ = rs.prod * sVal rss dss + (odomVal rs ds + 1) := by rw [hv1]
        _ = odomVal rs ds + rs.prod * sVal rss dss + 1 := by ring
    · simp only [Bool.not_eq_true] at ht
      simp only [sInc, ht, Bool.not_false, if_true] at hc ⊢
      simp only [sVal]
      rw [odomInc_false hrd ht]
      ring

/-- Stanza values determine in-bounds digit assignments uniquely. -/
lemma sVal_inj {rss : List (List Nat)} :
    ∀ {dss dss' : List (List Nat)}, stanzaWF rss dss → stanzaWF rss dss' →
      sVal rss dss = sVal rss dss' → dss = dss' := by
  induction rss with
  | nil =>
    intro dss dss' h h' _
    unfold stanzaWF at h h'
    rw [List.forall₂_nil_left_iff] at h h'
    rw [h, h']
  | cons rs rss ih =>
    intro dss dss' h h' heq
    unfold stanzaWF at h h'
    rw [List.forall₂_cons_left_iff] at h h'
    obtain ⟨ds, dsa, hrd, htail, rfl⟩ := h
    obtain ⟨ds', dsb, hrd', htail', rfl⟩ := h'
    have hva : odomVal rs ds < rs.prod := odomVal_lt hrd
    have hvb : odomVal rs ds' < rs.prod := odomVal_lt hrd'
    have hP : 0 < rs.prod := Nat.pos_of_ne_zero (by omega)
    simp only [sVal] at heq
    have hda : (rs.prod * sVal rss dsa + odomVal rs ds) / rs.prod = sVal rss dsa := by
      rw [Nat.mul_add_div hP, Nat.div_eq_of_lt hva, Nat.add_zero]
    have hdb : (rs.prod * sVal rss dsb + odomVal rs ds') / rs.prod = sVal rss dsb := by
      rw [Nat.mul_add_div hP, Nat.div_eq_of_lt hvb, Nat.add_zero]
    have hvals : sVal rss dsa = sVal rss dsb := by
      rw [← hda, ← hdb]
      congr 1
      calc rs.prod * sVal rss dsa + odomVal rs ds
          = odomVal rs ds + rs.prod * sVal rss dsa := by ring
        _ = odomVal rs ds' + rs.prod * sVal rss dsb := heq
        _ = rs.prod * sVal rss dsb + odomVal rs ds' := by ring
    have hdd : odomVal rs ds = odomVal rs ds' := by
      have := heq
      rw [hvals] at this
      omega
    rw [odomVal_inj hrd hrd' hdd, ih htail htail' hvals]

/-- The stanza digit list of a value below sProd is in bounds. -/
lemma sDigits_wf : ∀ (rss : List (List Nat)) (n : Nat), n < sProd rss →
    stanzaWF rss (sDigits rss n) := by
  intro rss
  induction rss with
  | nil => intro n h; exact List.Forall₂.nil
  | cons rs rss ih =>
    intro n h
    rw [sProd_cons] at h
    have hP : 0 < rs.prod := Nat.pos_of_ne_zero (by intro hz; rw [hz] at h; omega)
    refine List.Forall₂.cons (odomDigits_wf rs _ (Nat.mod_lt _ hP)) (ih _ ?_)
    exact Nat.div_lt_iff_lt_mul hP |>.mpr
      (by rw [Nat.mul_comm (sProd rss) rs.prod]; exact h)

/-- Value of the stanza digit list of a value. -/
lemma sVal_sDigits : ∀ (rss : List (List Nat)) (n : Nat), n < sProd rss →
    sVal rss (sDigits rss n) = n := by
  intro rss
  induction rss with
  | nil => intro n h; simp [sProd] at h; simp [sDigits, sVal, h]
  | cons rs rss ih =>
    intro n h
    rw [sProd_cons] at h
    have hP : 0 < rs.prod := Nat.pos_of_ne_zero (by intro hz; rw [hz] at h; omega)
    simp only [sDigits, sVal]
    rw [odomVal_odomDigits rs _ (Nat.mod_lt _ hP),
      ih _ (Nat.div_lt_iff_lt_mul hP |>.mpr
        (by rw [Nat.mul_comm (sProd rss) rs.prod]; exact h))]
    calc n % rs.prod + rs.prod * (n / rs.prod)
        = rs.prod * (n / rs.prod) + n % rs.prod := by ring
      _ = n := Nat.div_add_mod n rs.prod

end Poet

namespace Poet

/-!  Simulation: the source's advance is the mixed-radix increment.  -/

/-- advance_internal acts on in-bounds indices exactly as the odometer
increment over the line's radixes. -/
lemma advance_internal_sim (filter : Bool) :
    ∀ (ts : List Token) (ds : List Nat),
      digitsWF (lineRadixes filter ts) ds →
      advance_internal filter ts ds = odomInc (lineRadixes filter ts) ds := by
  intro ts
  induction ts with
  | nil =>
    intro ds h
    unfold digitsWF at h
    rw [show lineRadixes filter [] = [] from rfl, List.forall₂_nil_left_iff] at h
    subst h
    rfl
  | cons t ts ih =>
    intro ds h
    cases ts with
    | nil =>
      unfold digitsWF at h
      rw [show lineRadixes filter [t] = [tokenRadixLast t] from rfl,
        List.forall₂_cons_left_iff] at h
      obtain ⟨d, ds', hd, htail, rfl⟩ := h
      rw [List.forall₂_nil_left_iff] at htail
      subst htail
      rcases he : t.entry with _ | v
      · have hr : tokenRadixLast t = 1 := by simp [tokenRadixLast, he]
        rw [hr] at hd
        have hd0 : d = 0 := by omega
        subst hd0
        simp [advance_internal, odomInc, he, hr]
      · rcases hv : v.length with _ | n
        · have hr : tokenRadixLast t = 0 := by simp [tokenRadixLast, he, hv]
          rw [hr] at hd
          omega
        · rcases hn : n with _ | m
          · -- single variant
            have hr : tokenRadixLast t = 1 := by simp [tokenRadixLast, he, hv, hn]
            rw [hr] at hd
            have hd0 : d = 0 := by omega
            subst hd0
            simp [advance_internal, odomInc, he, hr, hv, hn]
          · -- two or more variants: the last token advances freely
            have hr : tokenRadixLast t = v.length := by simp [tokenRadixLast, he]
            have hlen : v.length ≠ 1 := by omega
            by_cases hinc : d + 1 = v.length
            · simp [advance_internal, odomInc, he, hr, hlen, hinc]
            · simp [advance_internal, odomInc, he, hr, hlen, hinc]
    | cons t' ts' =>
      unfold digitsWF at h
      rw [show lineRadixes filter (t :: t' :: ts') =
            tokenRadixInner filter t :: lineRadixes filter (t' :: ts') from rfl,
        List.forall₂_cons_left_iff] at h
      obtain ⟨d, ds', hd, htail, rfl⟩ := h
      have hihr := ih ds' htail
      by_cases ho : (odomInc (lineRadixes filter (t' :: ts')) ds').2 = true
      · -- tail rolled over: the head token is asked to advance
        rcases he : t.entry with _ | v
        · have hr : tokenRadixInner filter t = 1 := by simp [tokenRadixInner, he]
          rw [hr] at hd
          have hd0 : d = 0 := by omega
          subst hd0
          simp [advance_internal, odomInc, he, hr, hihr, ho]
        · rcases hv0 : v with _ | ⟨e0, vrest⟩
          · -- empty entry list
            subst hv0
            by_cases hf : filter = true
            · subst hf
              have hr : tokenRadixInner true t = 1 := by
                simp [tokenRadixInner, he, allSameSyl]
              rw [hr] at hd
              have hd0 : d = 0 := by omega
              subst hd0
              simp [advance_internal, odomInc, he, hr, hihr, ho, allSameSyl]
            · have hr : tokenRadixInner filter t = 0 := by
                simp only [Bool.not_eq_true] at hf
                simp [tokenRadixInner, he, hf]
              rw [hr] at hd
              omega
          · by_cases h1 : v.length = 1
            · have hr : tokenRadixInner filter t = 1 := by simp [tokenRadixInner, he, h1]
              rw [hr] at hd
              have hd0 : d = 0 := by omega
              subst hd0
              simp [advance_internal, odomInc, he, hr, hihr, ho, h1]
            · by_cases hfa : filter = true ∧ allSameSyl v = true
              · obtain ⟨hf, ha⟩ := hfa
                subst hf
                have hr : tokenRadixInner true t = 1 := by
                  simp [tokenRadixInner, he, h1, ha]
                rw [hr] at hd
                have hd0 : d = 0 := by omega
                subst hd0
                simp [advance_internal, odomInc, he, hr, hihr, ho, h1, ha]
              · have hr : tokenRadixInner filter t = v.length := by
                  rcases Decidable.not_and_iff_or_not.mp hfa with hf | ha
                  · simp only [Bool.not_eq_true] at hf
                    simp [tokenRadixInner, he, h1, hf]
                  · simp only [Bool.not_eq_true] at ha
                    simp [tokenRadixInner, he, h1, ha]
                by_cases hinc : d + 1 = v.length
                · simp [advance_internal, odomInc, he, hr, hihr, ho, h1, hfa, hinc]
                · simp [advance_internal, odomInc, he, hr, hihr, ho, h1, hfa, hinc]
      · -- tail advanced without rolling: indices before it are untouched
        simp only [Bool.not_eq_true] at ho
        simp [advance_internal, odomInc, hihr, ho]

end Poet

namespace Poet

/-- setIndices with a view's own indices is the identity. -/
lemma setIndices_self : ∀ (lvs : List LineView), setIndices lvs (viewIndices lvs) = lvs := by
  intro lvs
  induction lvs with
  | nil => rfl
  | cons lv rest ih =>
    show (⟨lv.line, lv.indices⟩ : LineView) :: setIndices rest (viewIndices rest) = _
    rw [ih]

/-- setIndices keeps the lines, so the radixes are unchanged. -/
lemma viewRadixes_setIndices (filter : Bool) :
    ∀ (lvs : List LineView) (dss : List (List Nat)), dss.length = lvs.length →
      viewRadixes filter (setIndices lvs dss) = viewRadixes filter lvs := by
  intro lvs
  induction lvs with
  | nil => intro dss h; cases dss <;> rfl
  | cons lv rest ih =>
    intro dss h
    cases dss with
    | nil => simp at h
    | cons ds dss' =>
      show lineRadixes filter lv.line.tokens :: viewRadixes filter (setIndices rest dss') = _
      rw [ih dss' (by simpa using h)]
      rfl

/-- The indices of a view with replaced indices are the new indices. -/
lemma viewIndices_setIndices :
    ∀ (lvs : List LineView) (dss : List (List Nat)), dss.length = lvs.length →
      viewIndices (setIndices lvs dss) = dss := by
  intro lvs
  induction lvs with
  | nil => intro dss h; cases dss <;> simp_all [setIndices, viewIndices]
  | cons lv rest ih =>
    intro dss h
    cases dss with
    | nil => simp at h
    | cons ds dss' =>
      show ds :: viewIndices (setIndices rest dss') = _
      rw [ih dss' (by simpa using h)]

/-- Replacing indices twice keeps only the second replacement. -/
lemma setIndices_setIndices :
    ∀ (lvs : List LineView) (dss dss' : List (List Nat)), dss.length = lvs.length →
      setIndices (setIndices lvs dss) dss' = setIndices lvs dss' := by
  intro lvs
  induction lvs with
  | nil => intro dss dss' h; cases dss <;> cases dss' <;> rfl
  | cons lv rest ih =>
    intro dss dss' h
    cases dss with
    | nil => simp at h
    | cons ds dss₁ =>
      cases dss' with
      | nil => rfl
      | cons es ess =>
        show (⟨lv.line, es⟩ : LineView) :: setIndices (setIndices rest dss₁) ess = _
        rw [ih dss₁ ess (by simpa using h)]
        rfl

/-- The line loop of next acts on in-bounds views exactly as the chained
stanza odometer. -/
lemma advanceLines_sim (filter : Bool) :
    ∀ (lvs : List LineView),
      stanzaWF (viewRadixes filter lvs) (viewIndices lvs) →
      advanceLines filter lvs =
        (setIndices lvs (sInc (viewRadixes filter lvs) (viewIndices lvs)).1,
         (sInc (viewRadixes filter lvs) (viewIndices lvs)).2) := by
  intro lvs
  induction lvs with
  | nil => intro _; rfl
  | cons lv rest ih =>
    intro h
    unfold stanzaWF at h
    rw [show viewRadixes filter (lv :: rest) =
        lineRadixes filter lv.line.tokens :: viewRadixes filter rest from rfl,
      show viewIndices (lv :: rest) = lv.indices :: viewIndices rest from rfl,
      List.forall₂_cons] at h
    obtain ⟨hhd, htl⟩ := h
    have hadv := advance_internal_sim filter lv.line.tokens lv.indices hhd
    by_cases ho : (odomInc (lineRadixes filter lv.line.tokens) lv.indices).2 = true
    · have hr := ih htl
      show (let r := lv.advance filter;
        if !r.2 then (r.1 :: rest, false)
        else
          let rr := advanceLines filter rest
          (r.1 :: rr.1, rr.2)) = _
      simp only [LineView.advance, hadv, ho, Bool.not_true, Bool.false_eq_true, if_false,
        hr]
      show ((⟨lv.line, (odomInc (lineRadixes filter lv.line.tokens) lv.indices).1⟩ :
          LineView) :: setIndices rest
            (sInc (viewRadixes filter rest) (viewIndices rest)).1, _) = _
      rw [show sInc (viewRadixes filter (lv :: rest)) (viewIndices (lv :: rest)) =
          ((odomInc (lineRadixes filter lv.line.tokens) lv.indices).1 ::
            (sInc (viewRadixes filter rest) (viewIndices rest)).1,
           (sInc (viewRadixes filter rest) (viewIndices rest)).2) by
        show sInc (lineRadixes filter lv.line.tokens :: viewRadixes filter rest)
          (lv.indices :: viewIndices rest) = _
        simp only [sInc, ho, Bool.not_true, Bool.false_eq_true, if_false]]
      rfl
    · simp only [Bool.not_eq_true] at ho
      show (let r := lv.advance filter;
        if !r.2 then (r.1 :: rest, false)
        else
          let rr := advanceLines filter rest
          (r.1 :: rr.1, rr.2)) = _
      simp only [LineView.advance, hadv, ho, Bool.not_false, if_true]
      rw [show sInc (viewRadixes filter (lv :: rest)) (viewIndices (lv :: rest)) =
          ((odomInc (lineRadixes filter lv.line.tokens) lv.indices).1 ::
            viewIndices rest, false) by
        show sInc (lineRadixes filter lv.line.tokens :: viewRadixes filter rest)
          (lv.indices :: viewIndices rest) = _
        simp only [sInc, ho, Bool.not_false, if_true]]
      show ((⟨lv.line, (odomInc (lineRadixes filter lv.line.tokens) lv.indices).1⟩ :
          LineView) :: rest, false) = _
      rw [show setIndices (lv :: rest)
          ((odomInc (lineRadixes filter lv.line.tokens) lv.indices).1 ::
            viewIndices rest) =
          (⟨lv.line, (odomInc (lineRadixes filter lv.line.tokens) lv.indices).1⟩ :
            LineView) :: setIndices rest (viewIndices rest) from rfl,
        setIndices_self]

end Poet

namespace Poet

/-- Length of a view's indices list equals the number of lines. -/
lemma stanzaWF_length {filter : Bool} {lvs : List LineView} {dss : List (List Nat)}
    (h : stanzaWF (viewRadixes filter lvs) dss) : dss.length = lvs.length := by
  have := List.Forall₂.length_eq h
  simpa [viewRadixes] using this.symm

/-- Main run lemma: from any in-bounds state with k values left to
enumerate, the iterator with enough fuel produces exactly k further
views, each a higher-valued in-bounds assignment over the same lines,
and produces every such assignment. -/
lemma runIter_main (filter : Bool) (lvs0 : List LineView) :
    ∀ (k fuel : Nat) (dss : List (List Nat)),
      stanzaWF (viewRadixes filter lvs0) dss →
      sVal (viewRadixes filter lvs0) dss + 1 + k = sProd (viewRadixes filter lvs0) →
      k + 1 ≤ fuel →
      (runIter fuel ⟨⟨setIndices lvs0 dss⟩, false, filter⟩).2 = true ∧
      (runIter fuel ⟨⟨setIndices lvs0 dss⟩, false, filter⟩).1.length = k ∧
      (∀ v ∈ (runIter fuel ⟨⟨setIndices lvs0 dss⟩, false, filter⟩).1,
        ∃ dss', stanzaWF (viewRadixes filter lvs0) dss' ∧
          v = ⟨setIndices lvs0 dss'⟩ ∧
          sVal (viewRadixes filter lvs0) dss < sVal (viewRadixes filter lvs0) dss') ∧
      (∀ dss', stanzaWF (viewRadixes filter lvs0) dss' →
        sVal (viewRadixes filter lvs0) dss < sVal (viewRadixes filter lvs0) dss' →
        (⟨setIndices lvs0 dss'⟩ : StanzaView) ∈
          (runIter fuel ⟨⟨setIndices lvs0 dss⟩, false, filter⟩).1) := by
  intro k
  induction k with
  | zero =>
    intro fuel dss hwf hval hfuel
    have hlen : dss.length = lvs0.length := stanzaWF_length hwf
    have hwf' : stanzaWF (viewRadixes filter (setIndices lvs0 dss))
        (viewIndices (setIndices lvs0 dss)) := by
      rw [viewRadixes_setIndices filter lvs0 dss hlen,
        viewIndices_setIndices lvs0 dss hlen]
      exact hwf
    have hadv := advanceLines_sim filter (setIndices lvs0 dss) hwf'
    rw [viewRadixes_setIndices filter lvs0 dss hlen,
      viewIndices_setIndices lvs0 dss hlen] at hadv
    have hcarry : (sInc (viewRadixes filter lvs0) dss).2 = true := by
      by_contra hc
      rw [Bool.not_eq_true] at hc
      have := sInc_false hwf hc
      have hlt := sVal_lt (sInc_wf hwf)
      omega
    cases fuel with
    | zero => omega
    | succ f =>
      have hnone : (InterpretationsIter.mk ⟨setIndices lvs0 dss⟩ false filter).next = none := by
        simp only [InterpretationsIter.next, Bool.false_eq_true, if_false, hadv, hcarry]
        rfl
      rw [show runIter (f + 1) ⟨⟨setIndices lvs0 dss⟩, false, filter⟩ = ([], true) by
        simp only [runIter, hnone]]
      refine ⟨rfl, rfl, by simp, ?_⟩
      intro dss' hwf' hgt
      have := sVal_lt hwf'
      omega
  | succ k ih =>
    intro fuel dss hwf hval hfuel
    have hlen : dss.length = lvs0.length := stanzaWF_length hwf
    have hwf2 : stanzaWF (viewRadixes filter (setIndices lvs0 dss))
        (viewIndices (setIndices lvs0 dss)) := by
      rw [viewRadixes_setIndices filter lvs0 dss hlen,
        viewIndices_setIndices lvs0 dss hlen]
      exact hwf
    have hadv := advanceLines_sim filter (setIndices lvs0 dss) hwf2
    rw [viewRadixes_setIndices filter lvs0 dss hlen,
      viewIndices_setIndices lvs0 dss hlen] at hadv
    have hcarry : (sInc (viewRadixes filter lvs0) dss).2 = false := by
      by_contra hc
      rw [Bool.not_eq_false] at hc
      have := (sInc_true hwf hc).2
      omega
    set dss₁ := (sInc (viewRadixes filter lvs0) dss).1 with hdss₁
    have hwf₁ : stanzaWF (viewRadixes filter lvs0) dss₁ := sInc_wf hwf
    have hval₁ : sVal (viewRadixes filter lvs0) dss₁ =
        sVal (viewRadixes filter lvs0) dss + 1 := sInc_false hwf hcarry
    have hlen₁ : dss₁.length = lvs0.length := stanzaWF_length hwf₁
    have hset : setIndices (setIndices lvs0 dss) dss₁ = setIndices lvs0 dss₁ :=
      setIndices_setIndices lvs0 dss dss₁ hlen
    cases fuel with
    | zero => omega
    | succ f =>
      have hnext : (InterpretationsIter.mk ⟨setIndices lvs0 dss⟩ false filter).next =
          some (⟨setIndices lvs0 dss₁⟩,
            ⟨⟨setIndices lvs0 dss₁⟩, false, filter⟩) := by
        simp only [InterpretationsIter.next, Bool.false_eq_true, if_false, hadv, hcarry]
        rw [hset]
      have hih := ih f dss₁ hwf₁ (by omega) (by omega)
      rw [show runIter (f + 1) ⟨⟨setIndices lvs0 dss⟩, false, filter⟩ =
          ((⟨setIndices lvs0 dss₁⟩ : StanzaView) ::
            (runIter f ⟨⟨setIndices lvs0 dss₁⟩, false, filter⟩).1,
           (runIter f ⟨⟨setIndices lvs0 dss₁⟩, false, filter⟩).2) by
        simp only [runIter, hnext]]
      obtain ⟨hfin, hcount, hmem, hcompl⟩ := hih
      refine ⟨hfin, by simp [hcount], ?_, ?_⟩
      · intro v hv
        rcases List.mem_cons.mp hv with rfl | hv
        · exact ⟨dss₁, hwf₁, rfl, by omega⟩
        · obtain ⟨dss', h1, h2, h3⟩ := hmem v hv
          exact ⟨dss', h1, h2, by omega⟩
      · intro dss' hwfd hgt
        by_cases heq : sVal (viewRadixes filter lvs0) dss' =
            sVal (viewRadixes filter lvs0) dss + 1
        · have : dss' = dss₁ := sVal_inj hwfd hwf₁ (by omega)
          subst this
          exact List.mem_cons_self _ _
        · exact List.mem_cons_of_mem _ (hcompl dss' hwfd (by omega))

end Poet

namespace Poet

/-- lineRadixes has one radix per token. -/
lemma lineRadixes_length (filter : Bool) :
    ∀ ts : List Token, (lineRadixes filter ts).length = ts.length := by
  intro ts
  induction ts with
  | nil => rfl
  | cons t ts ih =>
    cases ts with
    | nil => rfl
    | cons t' ts' =>
      show (tokenRadixInner filter t :: lineRadixes filter (t' :: ts')).length = _
      simp [ih]

/-- Radixes are positive when no token has an empty entry list. -/
lemma lineRadixes_pos (filter : Bool) :
    ∀ ts : List Token, (∀ t ∈ ts, t.entry ≠ some []) →
      ∀ r ∈ lineRadixes filter ts, 0 < r := by
  intro ts
  induction ts with
  | nil => intro _ r hr; cases hr
  | cons t ts ih =>
    intro h r hr
    cases ts with
    | nil =>
      rcases List.mem_singleton.mp hr with rfl
      rcases he : t.entry with _ | v
      · simp [tokenRadixLast, he]
      · have : v ≠ [] := by
          intro hv
          exact h t (by simp) (by rw [he, hv])
        simp only [tokenRadixLast, he]
        cases v with
        | nil => exact absurd rfl this
        | cons e es => simp
    | cons t' ts' =>
      rw [show lineRadixes filter (t :: t' :: ts') =
          tokenRadixInner filter t :: lineRadixes filter (t' :: ts') from rfl] at hr
      rcases List.mem_cons.mp hr with rfl | hr
      · rcases he : t.entry with _ | v
        · simp [tokenRadixInner, he]
        · have hv : v ≠ [] := by
            intro hv
            exact h t (by simp) (by rw [he, hv])
          simp only [tokenRadixInner, he]
          by_cases h1 : v.length = 1
          · simp [h1]
          · by_cases h2 : filter = true ∧ allSameSyl v = true
            · simp [h1, h2.1, h2.2]
            · have : ¬(filter = true ∧ allSameSyl v = true) := h2
              simp only [if_neg h1, if_neg this]
              cases v with
              | nil => exact absurd rfl hv
              | cons e es => simp
      · exact ih (fun x hx => h x (by simp [hx])) r hr

/-- The initial view of a stanza has all-zero indices, phrased as the
zero digit assignment over the radixes. -/
lemma viewIndices_new (filter : Bool) (s : Stanza) :
    viewIndices (StanzaView.new s).lines =
      (viewRadixes filter (StanzaView.new s).lines).map fun rs => rs.map fun _ => 0 := by
  unfold StanzaView.new viewIndices viewRadixes
  rw [List.map_map, List.map_map, List.map_map]
  apply List.map_congr_left
  intro l _
  show List.replicate l.tokens.length 0 = (lineRadixes filter l.tokens).map fun _ => 0
  rw [show ((fun _ => 0) : Nat → Nat) = Function.const Nat 0 from rfl,
    List.map_const, lineRadixes_length]

/-- The loop over lines reports done exactly when every line's advance
(on its own state) rolls over. -/
lemma advanceLines_done_iff (filter : Bool) :
    ∀ lvs : List LineView,
      (advanceLines filter lvs).2 = true ↔
        ∀ lv ∈ lvs, (lv.advance filter).2 = true := by
  intro lvs
  induction lvs with
  | nil => simp [advanceLines]
  | cons lv rest ih =>
    by_cases h : (lv.advance filter).2 = true
    · rw [show advanceLines filter (lv :: rest) =
          ((lv.advance filter).1 :: (advanceLines filter rest).1,
           (advanceLines filter rest).2) by
        simp [advanceLines, h]]
      simp only [List.mem_cons]
      constructor
      · intro hall x hx
        rcases hx with rfl | hx
        · exact h
        · exact (ih.mp hall) x hx
      · intro hall
        exact ih.mpr fun x hx => hall x (Or.inr hx)
    · rw [show advanceLines filter (lv :: rest) =
          ((lv.advance filter).1 :: rest, false) by
        simp only [Bool.not_eq_true] at h
        simp [advanceLines, h]]
      simp only [List.mem_cons]
      constructor
      · intro hc; cases hc
      · intro hall
        exact absurd (hall lv (Or.inl rfl)) h

/-- Nested positivity of a stanza's radix products. -/
lemma sProd_pos {rss : List (List Nat)} (h : ∀ rs ∈ rss, ∀ r ∈ rs, 0 < r) :
    0 < sProd rss := by
  unfold sProd
  apply List.prod_pos
  intro a ha
  obtain ⟨rs, hrs, rfl⟩ := List.mem_map.mp ha
  exact List.prod_pos fun r hr => h rs hrs r hr

/-- Full-run lemma: starting the iterator on a stanza view with all-zero
indices and positive radixes, it terminates within sProd+1 steps, yields
exactly sProd views, the all-zero view first, and the produced views are
exactly the in-bounds digit assignments over the same lines. -/
lemma runIter_full (filter : Bool) (lvs0 : List LineView)
    (hz : viewIndices lvs0 =
      (viewRadixes filter lvs0).map fun rs => rs.map fun _ => 0)
    (hpos : ∀ rs ∈ viewRadixes filter lvs0, ∀ r ∈ rs, 0 < r) :
    (runIter (sProd (viewRadixes filter lvs0) + 1) ⟨⟨lvs0⟩, true, filter⟩).2 = true ∧
    (runIter (sProd (viewRadixes filter lvs0) + 1) ⟨⟨lvs0⟩, true, filter⟩).1.length =
      sProd (viewRadixes filter lvs0) ∧
    (runIter (sProd (viewRadixes filter lvs0) + 1) ⟨⟨lvs0⟩, true, filter⟩).1.head? =
      some ⟨lvs0⟩ ∧
    (∀ v ∈ (runIter (sProd (viewRadixes filter lvs0) + 1) ⟨⟨lvs0⟩, true, filter⟩).1,
      ∃ dss, stanzaWF (viewRadixes filter lvs0) dss ∧ v = ⟨setIndices lvs0 dss⟩) ∧
    (∀ dss, stanzaWF (viewRadixes filter lvs0) dss →
      (⟨setIndices lvs0 dss⟩ : StanzaView) ∈
        (runIter (sProd (viewRadixes filter lvs0) + 1) ⟨⟨lvs0⟩, true, filter⟩).1) := by
  have hP : 0 < sProd (viewRadixes filter lvs0) := sProd_pos hpos
  have hwf0 : stanzaWF (viewRadixes filter lvs0)
      ((viewRadixes filter lvs0).map fun rs => rs.map fun _ => 0) :=
    stanzaWF_zeros _ hpos
  have hval0 : sVal (viewRadixes filter lvs0)
      ((viewRadixes filter lvs0).map fun rs => rs.map fun _ => 0) = 0 := sVal_zeros _
  have hself : setIndices lvs0
      ((viewRadixes filter lvs0).map fun rs => rs.map fun _ => 0) = lvs0 := by
    rw [← hz]
    exact setIndices_self lvs0
  have hfirst : (InterpretationsIter.mk ⟨lvs0⟩ true filter).next =
      some (⟨lvs0⟩, ⟨⟨lvs0⟩, false, filter⟩) := by
    simp [InterpretationsIter.next]
  have hmain := runIter_main filter lvs0 (sProd (viewRadixes filter lvs0) - 1)
    (sProd (viewRadixes filter lvs0))
    ((viewRadixes filter lvs0).map fun rs => rs.map fun _ => 0) hwf0
    (by omega) (by omega)
  rw [hself] at hmain
  obtain ⟨hfin, hcount, hmem, hcompl⟩ := hmain
  have hstep : runIter (sProd (viewRadixes filter lvs0) + 1) ⟨⟨lvs0⟩, true, filter⟩ =
      ((⟨lvs0⟩ : StanzaView) ::
        (runIter (sProd (viewRadixes filter lvs0)) ⟨⟨lvs0⟩, false, filter⟩).1,
       (runIter (sProd (viewRadixes filter lvs0)) ⟨⟨lvs0⟩, false, filter⟩).2) := by
    simp only [runIter, hfirst]
  rw [hstep]
  refine ⟨hfin, by simp only [List.length_cons, hcount]; omega, rfl, ?_, ?_⟩
  · intro v hv
    rcases List.mem_cons.mp hv with rfl | hv
    · exact ⟨_, hwf0, by rw [hself]⟩
    · obtain ⟨dss, h1, h2, _⟩ := hmem v hv
      exact ⟨dss, h1, h2⟩
  · intro dss hwfd
    by_cases h0 : sVal (viewRadixes filter lvs0) dss = 0
    · have : dss = (viewRadixes filter lvs0).map fun rs => rs.map fun _ => 0 :=
        sVal_inj hwfd hwf0 (by omega)
      rw [this, hself]
      exact List.mem_cons_self _ _
    · exact List.mem_cons_of_mem _ (hcompl dss hwfd (by omega))

end Poet

namespace Poet

/-!  Claim C5 (confirmed): first view, finiteness, termination point.  -/

/-- C5: the iterator's first produced item is the all-zero view (yielded
before any advance); with positive variant counts the sequence is finite
(exhaustion is reached within sProd+1 steps of fuel); and a non-first
call yields nothing exactly when every line simultaneously reports
rolled-over on the advance attempt. -/
theorem c5_iterator_first_view_and_termination (s : Stanza)
    (hwf : ∀ l ∈ s.lines, ∀ t ∈ l.tokens, t.entry ≠ some []) :
    ((s.interpretations).next =
        some (StanzaView.new s, ⟨StanzaView.new s, false, true⟩) ∧
      ∀ lv ∈ (StanzaView.new s).lines,
        lv.indices = List.replicate lv.line.tokens.length 0) ∧
    (runIter (sProd (viewRadixes true (StanzaView.new s).lines) + 1)
        (s.interpretations)).2 = true ∧
    (∀ it : InterpretationsIter, it.first_run = false →
      (it.next = none ↔ ∀ lv ∈ it.view.lines, (lv.advance it.filter).2 = true)) := by
  have hpos : ∀ rs ∈ viewRadixes true (StanzaView.new s).lines, ∀ r ∈ rs, 0 < r := by
    intro rs hrs r hr
    obtain ⟨lv, hlv, rfl⟩ := List.mem_map.mp hrs
    obtain ⟨l, hl, rfl⟩ := List.mem_map.mp hlv
    exact lineRadixes_pos true l.tokens (hwf l hl) r hr
  refine ⟨⟨?_, ?_⟩, ?_, ?_⟩
  · simp [Stanza.interpretations, InterpretationsIter.next]
  · intro lv hlv
    obtain ⟨l, _, rfl⟩ := List.mem_map.mp hlv
    rfl
  · have := (runIter_full true (StanzaView.new s).lines
      (viewIndices_new true s) hpos).1
    simpa [Stanza.interpretations] using this
  · intro it hfr
    have hnext : it.next = none ↔
        (advanceLines it.filter it.view.lines).2 = true := by
      by_cases hd : (advanceLines it.filter it.view.lines).2 = true
      · simp [InterpretationsIter.next, hfr, hd]
      · simp [InterpretationsIter.next, hfr, hd]
    rw [hnext]
    exact advanceLines_done_iff it.filter it.view.lines

/-- Witness for C5 at the concrete three-line stanza fixture. -/
theorem c5_iterator_first_view_and_termination_witness :
    (runIter (sProd (viewRadixes true (StanzaView.new wStanza).lines) + 1)
        (wStanza.interpretations)).2 = true :=
  (c5_iterator_first_view_and_termination wStanza (by decide)).2.1

end Poet

namespace Poet

/-!  Positional lemmas for C4.  -/

/-- Radix at a position: the last position gets the exempt radix, every
other one the pruning-aware radix. -/
lemma lineRadixes_get (filter : Bool) :
    ∀ (ts : List Token) (k : Nat) (t : Token), ts.get? k = some t →
      (lineRadixes filter ts).get? k =
        some (if k + 1 = ts.length then tokenRadixLast t
              else tokenRadixInner filter t) := by
  intro ts
  induction ts with
  | nil => intro k t h; simp at h
  | cons t0 ts ih =>
    intro k t h
    cases ts with
    | nil =>
      cases k with
      | zero =>
        simp only [List.get?] at h
        injection h with h
        subst h
        simp [lineRadixes]
      | succ k => simp at h
    | cons t1 ts' =>
      cases k with
      | zero =>
        simp only [List.get?] at h
        injection h with h
        subst h
        rw [show lineRadixes filter (t0 :: t1 :: ts') =
            tokenRadixInner filter t0 :: lineRadixes filter (t1 :: ts') from rfl]
        have hne : ¬(0 + 1 = (t0 :: t1 :: ts').length) := by simp
        simp [hne]
      | succ k =>
        simp only [List.get?] at h
        rw [show lineRadixes filter (t0 :: t1 :: ts') =
            tokenRadixInner filter t0 :: lineRadixes filter (t1 :: ts') from rfl]
        show (lineRadixes filter (t1 :: ts')).get? k = _
        rw [ih k t h]
        simp only [List.length_cons]
        by_cases hk : k + 1 = ts'.length + 1
        · rw [if_pos hk, if_pos (by omega)]
        · rw [if_neg hk, if_neg (by omega)]

/-- Position lookup through setIndices. -/
lemma setIndices_get :
    ∀ (lvs : List LineView) (dss : List (List Nat)) (j : Nat) (lv : LineView)
      (ds : List Nat), lvs.get? j = some lv → dss.get? j = some ds →
      (setIndices lvs dss).get? j = some ⟨lv.line, ds⟩ := by
  intro lvs
  induction lvs with
  | nil => intro dss j lv ds h _; simp at h
  | cons lv0 rest ih =>
    intro dss j lv ds h hd
    cases dss with
    | nil => simp at hd
    | cons ds0 dss' =>
      cases j with
      | zero =>
        simp only [List.get?] at h hd
        injection h with h
        injection hd with hd
        subst h; subst hd
        rfl
      | succ j =>
        simp only [List.get?] at h hd
        exact ih dss' j lv ds h hd

/-- Positional inversion of setIndices membership. -/
lemma setIndices_get_inv :
    ∀ (lvs : List LineView) (dss : List (List Nat)) (j : Nat) (lv : LineView),
      (setIndices lvs dss).get? j = some lv →
      ∃ lv0 ds, lvs.get? j = some lv0 ∧ dss.get? j = some ds ∧
        lv = ⟨lv0.line, ds⟩ := by
  intro lvs
  induction lvs with
  | nil => intro dss j lv h; cases dss <;> simp [setIndices] at h
  | cons lv0 rest ih =>
    intro dss j lv h
    cases dss with
    | nil => simp [setIndices] at h
    | cons ds0 dss' =>
      cases j with
      | zero =>
        simp only [setIndices, List.get?] at h
        injection h with h
        exact ⟨lv0, ds0, rfl, rfl, h.symm⟩
      | succ j =>
        simp only [setIndices, List.get?] at h
        exact ih dss' j lv h

/-- Extracting a pointwise fact from Forall₂ at a position. -/
lemma forall₂_get? {α β : Type} {R : α → β → Prop} :
    ∀ {l1 : List α} {l2 : List β}, List.Forall₂ R l1 l2 →
      ∀ {i : Nat} {x : α} {y : β}, l1.get? i = some x → l2.get? i = some y → R x y := by
  intro l1 l2 h
  induction h with
  | nil => intro i x y hx _; simp at hx
  | cons hr _ ih =>
    intro i x y hx hy
    cases i with
    | zero =>
      simp only [List.get?] at hx hy
      injection hx with hx
      injection hy with hy
      subst hx; subst hy
      exact hr
    | succ i =>
      simp only [List.get?] at hx hy
      exact ih hx hy

/-- Length of the zeros-with-last digit list. -/
lemma zerosWithLast_length : ∀ (rs : List Nat) (t : Nat),
    (zerosWithLast rs t).length = rs.length := by
  intro rs
  induction rs with
  | nil => intro t; rfl
  | cons r rs ih =>
    intro t
    cases rs with
    | nil => rfl
    | cons r' rs' =>
      show (0 :: zerosWithLast (r' :: rs') t).length = _
      simp [ih]

/-- The zeros-with-last digit list is in bounds for positive radixes and
an in-range last digit. -/
lemma zerosWithLast_wf : ∀ (rs : List Nat) (t : Nat), (∀ r ∈ rs, 0 < r) →
    (∀ x, rs.getLast? = some x → t < x) → digitsWF rs (zerosWithLast rs t) := by
  intro rs
  induction rs with
  | nil => intro t _ _; exact List.Forall₂.nil
  | cons r rs ih =>
    intro t hpos hlast
    cases rs with
    | nil =>
      exact List.Forall₂.cons (hlast r rfl) List.Forall₂.nil
    | cons r' rs' =>
      refine List.Forall₂.cons (hpos r (by simp)) ?_
      refine ih t (fun x hx => hpos x (by simp [hx])) ?_
      intro x hx
      refine hlast x ?_
      rw [List.getLast?_cons_cons] at *
      exact hx

/-- The last digit of zeros-with-last is the given one. -/
lemma zerosWithLast_getLast? : ∀ (rs : List Nat) (t : Nat), rs ≠ [] →
    (zerosWithLast rs t).getLast? = some t := by
  intro rs
  induction rs with
  | nil => intro t h; exact absurd rfl h
  | cons r rs ih =>
    intro t _
    cases rs with
    | nil => rfl
    | cons r' rs' =>
      show (0 :: zerosWithLast (r' :: rs') t).getLast? = some t
      cases hL : zerosWithLast (r' :: rs') t with
      | nil =>
        have := zerosWithLast_length (r' :: rs') t
        rw [hL] at this
        simp at this
      | cons b l =>
        rw [List.getLast?_cons_cons, ← hL]
        exact ih t (by simp)

end Poet

namespace Poet

/-!  Claim C4 (confirmed): pruning invariant and its last-token
exemption.  -/

/-- C4: with pruning enabled, in every StanzaView the iterator produces,
a token that is unknown, has a single variant, or is a non-final token
of its line whose variants all share one syllable count keeps selected
variant index 0; and the exemption for the final token of each line is
real: every variant index below its variant count is selected in some
produced view. -/
theorem c4_pruning_pins_interior_tokens_and_enumerates_last (s : Stanza)
    (hwf : ∀ l ∈ s.lines, ∀ t ∈ l.tokens, t.entry ≠ some []) :
    (∀ v ∈ (runIter (sProd (viewRadixes true (StanzaView.new s).lines) + 1)
        (s.interpretations)).1,
      ∀ (j : Nat) (lv : LineView), v.lines.get? j = some lv →
        ∀ (k : Nat) (t : Token), lv.line.tokens.get? k = some t →
          (t.entry = none ∨
            ∃ es, t.entry = some es ∧
              (es.length = 1 ∨
                (k + 1 < lv.line.tokens.length ∧ allSameSyl es = true))) →
          lv.indices.get? k = some 0) ∧
    (∀ (j : Nat) (l : Line), s.lines.get? j = some l →
      ∀ (t : Token), l.tokens.getLast? = some t →
        ∀ (es : List Entry), t.entry = some es → ∀ i, i < es.length →
          ∃ v ∈ (runIter (sProd (viewRadixes true (StanzaView.new s).lines) + 1)
              (s.interpretations)).1,
            ∃ lv : LineView, v.lines.get? j = some lv ∧ lv.line = l ∧
              lv.indices.getLast? = some i) := by
  have hpos : ∀ rs ∈ viewRadixes true (StanzaView.new s).lines, ∀ r ∈ rs, 0 < r := by
    intro rs hrs r hr
    obtain ⟨lv, hlv, rfl⟩ := List.mem_map.mp hrs
    obtain ⟨l, hl, rfl⟩ := List.mem_map.mp hlv
    exact lineRadixes_pos true l.tokens (hwf l hl) r hr
  have hit : s.interpretations =
      (⟨⟨(StanzaView.new s).lines⟩, true, true⟩ : InterpretationsIter) := rfl
  obtain ⟨-, -, -, hmem, hcompl⟩ :=
    runIter_full true (StanzaView.new s).lines (viewIndices_new true s) hpos
  constructor
  · intro v hv j lv hj k t hk hcond
    rw [hit] at hv
    obtain ⟨dss, hwfd, rfl⟩ := hmem v hv
    obtain ⟨lv0, ds, hlv0, hds, hlveq⟩ :=
      setIndices_get_inv (StanzaView.new s).lines dss j lv hj
    have hk' : lv0.line.tokens.get? k = some t := by rw [hlveq] at hk; exact hk
    have hR : (viewRadixes true (StanzaView.new s).lines).get? j =
        some (lineRadixes true lv0.line.tokens) := by
      simp only [viewRadixes, List.get?_eq_getElem?, List.getElem?_map]
      rw [← List.get?_eq_getElem?, hlv0]
      rfl
    have hWFline : digitsWF (lineRadixes true lv0.line.tokens) ds :=
      forall₂_get? hwfd hR hds
    have hrk := lineRadixes_get true lv0.line.tokens k t hk'
    have hr1 : (if k + 1 = lv0.line.tokens.length then tokenRadixLast t
        else tokenRadixInner true t) = 1 := by
      rcases hcond with hn | ⟨es, he, h1 | ⟨hklt, hsame⟩⟩
      · simp [tokenRadixLast, tokenRadixInner, hn]
      · simp [tokenRadixLast, tokenRadixInner, he, h1]
      · have hklt' : k + 1 < lv0.line.tokens.length := by
          rw [hlveq] at hklt; exact hklt
        rw [if_neg (by omega)]
        by_cases h1 : es.length = 1
        · simp [tokenRadixInner, he, h1]
        · simp [tokenRadixInner, he, h1, hsame]
    have hklen : k < lv0.line.tokens.length := by
      rcases List.get?_eq_some.mp hk' with ⟨hh, _⟩
      exact hh
    have hdlen : ds.length = lv0.line.tokens.length := by
      have h1 := List.Forall₂.length_eq hWFline
      have h2 := lineRadixes_length true lv0.line.tokens
      omega
    obtain ⟨d, hd⟩ : ∃ d, ds.get? k = some d := by
      simp only [List.get?_eq_getElem?]
      exact ⟨ds[k], List.getElem?_eq_getElem (by omega)⟩
    have hdr : d < (if k + 1 = lv0.line.tokens.length then tokenRadixLast t
        else tokenRadixInner true t) := forall₂_get? hWFline hrk hd
    rw [hr1] at hdr
    have hd0 : d = 0 := by omega
    rw [hlveq]
    show ds.get? k = some 0
    rw [hd, hd0]
  · intro j l hj t hlast es hes i hi
    have hlv0 : (StanzaView.new s).lines.get? j = some (LineView.new l) := by
      simp only [StanzaView.new, List.get?_eq_getElem?, List.getElem?_map]
      rw [← List.get?_eq_getElem?, hj]
      rfl
    have htne : l.tokens ≠ [] := by
      intro h0
      rw [h0] at hlast
      simp at hlast
    have hn1 : 0 < l.tokens.length := List.length_pos.mpr htne
    have hlastget : l.tokens.get? (l.tokens.length - 1) = some t := by
      rw [List.get?_eq_getElem?, ← List.getLast?_eq_getElem?]
      exact hlast
    have hrk := lineRadixes_get true l.tokens (l.tokens.length - 1) t hlastget
    rw [if_pos (by omega)] at hrk
    have hrsne : lineRadixes true l.tokens ≠ [] := by
      intro h0
      have hL := lineRadixes_length true l.tokens
      rw [h0] at hL
      simp only [List.length_nil] at hL
      omega
    have hrlast : (lineRadixes true l.tokens).getLast? = some (tokenRadixLast t) := by
      rw [List.getLast?_eq_getElem?, ← List.get?_eq_getElem?,
        lineRadixes_length true l.tokens]
      exact hrk
    have hposrs : ∀ r ∈ lineRadixes true l.tokens, 0 < r :=
      lineRadixes_pos true l.tokens (hwf l (List.get?_mem hj))
    have hTR : tokenRadixLast t = es.length := by
      simp [tokenRadixLast, hes]
    have hwfj : digitsWF (lineRadixes true l.tokens)
        (zerosWithLast (lineRadixes true l.tokens) i) := by
      refine zerosWithLast_wf _ i hposrs ?_
      intro x hx
      rw [hrlast] at hx
      injection hx with hx
      subst hx
      omega
    have hjR : (viewRadixes true (StanzaView.new s).lines).get? j =
        some (lineRadixes true l.tokens) := by
      simp only [viewRadixes, List.get?_eq_getElem?, List.getElem?_map]
      rw [← List.get?_eq_getElem?, hlv0]
      rfl
    have hjlt : j < (viewRadixes true (StanzaView.new s).lines).length := by
      rcases List.get?_eq_some.mp hjR with ⟨hh, _⟩
      exact hh
    have hjZ : j < ((viewRadixes true (StanzaView.new s).lines).map
        (fun rs => rs.map fun _ => 0)).length := by
      simpa using hjlt
    have hdssj : (((viewRadixes true (StanzaView.new s).lines).map
          (fun rs => rs.map fun _ => 0)).set j
          (zerosWithLast (lineRadixes true l.tokens) i)).get? j =
        some (zerosWithLast (lineRadixes true l.tokens) i) := by
      rw [List.get?_eq_getElem?]
      exact List.getElem?_set_self hjZ
    have hwfd : stanzaWF (viewRadixes true (StanzaView.new s).lines)
        (((viewRadixes true (StanzaView.new s).lines).map
          (fun rs => rs.map fun _ => 0)).set j
          (zerosWithLast (lineRadixes true l.tokens) i)) := by
      rw [stanzaWF, List.forall₂_iff_get]
      refine ⟨by simp, ?_⟩
      intro i' h1 h2
      by_cases hij : i' = j
      · subst hij
        have hg1 : (viewRadixes true (StanzaView.new s).lines).get ⟨i', h1⟩ =
            lineRadixes true l.tokens := by
          have h := List.get?_eq_get h1
          rw [hjR] at h
          injection h with h
          exact h.symm
        have hg2 : ((((viewRadixes true (StanzaView.new s).lines).map
              (fun rs => rs.map fun _ => 0)).set i'
              (zerosWithLast (lineRadixes true l.tokens) i))).get ⟨i', h2⟩ =
            zerosWithLast (lineRadixes true l.tokens) i := by
          have h := List.get?_eq_get h2
          rw [hdssj] at h
          injection h with h
          exact h.symm
        rw [hg1, hg2]
        exact hwfj
      · have hne : j ≠ i' := fun h => hij h.symm
        obtain ⟨rs', hrs'⟩ : ∃ rs',
            (viewRadixes true (StanzaView.new s).lines).get? i' = some rs' := by
          simp only [List.get?_eq_getElem?]
          exact ⟨_, List.getElem?_eq_getElem h1⟩
        have hz : ((viewRadixes true (StanzaView.new s).lines).map
            (fun rs => rs.map fun _ => 0)).get? i' = some (rs'.map fun _ => 0) := by
          simp only [List.get?_eq_getElem?, List.getElem?_map]
          rw [← List.get?_eq_getElem?, hrs']
          rfl
        have hg2' : ((((viewRadixes true (StanzaView.new s).lines).map
              (fun rs => rs.map fun _ => 0)).set j
              (zerosWithLast (lineRadixes true l.tokens) i))).get? i' =
            some (rs'.map fun _ => 0) := by
          rw [List.get?_eq_getElem?, List.getElem?_set_ne hne,
            ← List.get?_eq_getElem?]
          exact hz
        have hg1 : (viewRadixes true (StanzaView.new s).lines).get ⟨i', h1⟩ = rs' := by
          have h := List.get?_eq_get h1
          rw [hrs'] at h
          injection h with h
          exact h.symm
        have hg2 : ((((viewRadixes true (StanzaView.new s).lines).map
              (fun rs => rs.map fun _ => 0)).set j
              (zerosWithLast (lineRadixes true l.tokens) i))).get ⟨i', h2⟩ =
            rs'.map fun _ => 0 := by
          have h := List.get?_eq_get h2
          rw [hg2'] at h
          injection h with h
          exact h.symm
        rw [hg1, hg2]
        exact digitsWF_zeros rs' (hpos rs' (List.get?_mem hrs'))
    have hvmem := hcompl _ hwfd
    refine ⟨⟨setIndices (StanzaView.new s).lines
        (((viewRadixes true (StanzaView.new s).lines).map
          (fun rs => rs.map fun _ => 0)).set j
          (zerosWithLast (lineRadixes true l.tokens) i))⟩, ?_, ?_⟩
    · rw [hit]
      exact hvmem
    · refine ⟨⟨(LineView.new l).line, zerosWithLast (lineRadixes true l.tokens) i⟩,
        ?_, rfl, ?_⟩
      · exact setIndices_get (StanzaView.new s).lines _ j (LineView.new l) _ hlv0 hdssj
      · exact zerosWithLast_getLast? (lineRadixes true l.tokens) i hrsne

/-- Witness for C4 at the fixture stanza: the last token of its first
line (three variants) reaches variant index 2 in some produced view. -/
theorem c4_pruning_pins_interior_tokens_and_enumerates_last_witness :
    ∃ v ∈ (runIter (sProd (viewRadixes true (StanzaView.new wStanza).lines) + 1)
        (wStanza.interpretations)).1,
      ∃ lv : LineView, v.lines.get? 0 = some lv ∧
        lv.line = ⟨"a b c".toList, 1, 0,
          [⟨"a".toList, some [wEntry 1 1]⟩,
           ⟨"b".toList, some [wEntry 1 1, wEntry 1 2]⟩,
           ⟨"c".toList, some [wEntry 1 1, wEntry 1 2, wEntry 1 3]⟩]⟩ ∧
        lv.indices.getLast? = some 2 :=
  (c4_pruning_pins_interior_tokens_and_enumerates_last wStanza (by decide)).2 0
    ⟨"a b c".toList, 1, 0,
      [⟨"a".toList, some [wEntry 1 1]⟩,
       ⟨"b".toList, some [wEntry 1 1, wEntry 1 2]⟩,
       ⟨"c".toList, some [wEntry 1 1, wEntry 1 2, wEntry 1 3]⟩]⟩ (by decide)
    ⟨"c".toList, some [wEntry 1 1, wEntry 1 2, wEntry 1 3]⟩ (by decide)
    [wEntry 1 1, wEntry 1 2, wEntry 1 3] (by decide) 2 (by decide)

end Poet

namespace Poet

/-!  Lemmas for C6 (size_hint vs the odometer products).  -/

/-- The size-walk over a line's tokens computes the pruned and unpruned
radix products of that line. -/
lemma sizeTokens_eq : ∀ ts : List Token,
    sizeTokens ts = ((lineRadixes true ts).prod, (lineRadixes false ts).prod) := by
  intro ts
  induction ts with
  | nil => rfl
  | cons t ts ih =>
    cases ts with
    | nil =>
      show (match t.entry with
        | some v => if v.length = 1 then (1, 1) else (v.length, v.length)
        | none => (1, 1)) = _
      rcases he : t.entry with _ | v
      · simp [lineRadixes, tokenRadixLast, he]
      · by_cases h1 : v.length = 1
        · simp [lineRadixes, tokenRadixLast, he, h1]
        · simp [lineRadixes, tokenRadixLast, he, h1]
    | cons t' ts' =>
      show (match t.entry with
        | some v =>
          if v.length = 1 then sizeTokens (t' :: ts')
          else if allSameSyl v then
            ((sizeTokens (t' :: ts')).1, v.length * (sizeTokens (t' :: ts')).2)
          else (v.length * (sizeTokens (t' :: ts')).1,
            v.length * (sizeTokens (t' :: ts')).2)
        | none => sizeTokens (t' :: ts')) = _
      rw [show lineRadixes true (t :: t' :: ts') =
          tokenRadixInner true t :: lineRadixes true (t' :: ts') from rfl,
        show lineRadixes false (t :: t' :: ts') =
          tokenRadixInner false t :: lineRadixes false (t' :: ts') from rfl]
      rcases he : t.entry with _ | v
      · simp [tokenRadixInner, he, ih]
      · by_cases h1 : v.length = 1
        · simp [tokenRadixInner, he, h1, ih]
        · by_cases h2 : allSameSyl v = true
          · simp [tokenRadixInner, he, h1, h2, ih]
          · simp [tokenRadixInner, he, h1, h2, ih]

/-- Products respect the pointwise order. -/
lemma prod_le_of_le_forall₂ : ∀ {l1 l2 : List Nat},
    List.Forall₂ (· ≤ ·) l1 l2 → l1.prod ≤ l2.prod := by
  intro l1 l2 h
  induction h with
  | nil => exact le_refl _
  | cons hab _ ih => simpa using Nat.mul_le_mul hab ih

/-- A strictly smaller factor makes the whole product strictly smaller,
given the left factors are positive. -/
lemma prod_lt_of_lt_forall₂ : ∀ {l1 l2 : List Nat},
    List.Forall₂ (· ≤ ·) l1 l2 → (∀ x ∈ l1, 0 < x) →
    ∀ (k a b : Nat), l1.get? k = some a → l2.get? k = some b → a < b →
      l1.prod < l2.prod := by
  intro l1 l2 h
  induction h with
  | nil => intro _ k a b ha _ _; simp at ha
  | @cons x y l1' l2' hxy htail ih =>
    intro hpos k a b ha hb hlt
    cases k with
    | zero =>
      simp only [List.get?] at ha hb
      injection ha with ha
      injection hb with hb
      subst ha
      subst hb
      simp only [List.prod_cons]
      have h1 : l1'.prod ≤ l2'.prod := prod_le_of_le_forall₂ htail
      have h2 : 0 < l1'.prod := List.prod_pos fun z hz => hpos z (by simp [hz])
      calc x * l1'.prod < y * l1'.prod := mul_lt_mul_of_pos_right hlt h2
        _ ≤ y * l2'.prod := Nat.mul_le_mul (le_refl y) h1
    | succ k =>
      simp only [List.get?] at ha hb
      have h3 : l1'.prod < l2'.prod :=
        ih (fun z hz => hpos z (by simp [hz])) k a b ha hb hlt
      simp only [List.prod_cons]
      have hx0 : 0 < x := hpos x (by simp)
      calc x * l1'.prod < x * l2'.prod := mul_lt_mul_of_pos_left h3 hx0
        _ ≤ y * l2'.prod := Nat.mul_le_mul hxy (le_refl _)

/-- Pruned radixes are pointwise at most the unpruned ones. -/
lemma lineRadixes_le : ∀ ts : List Token, (∀ t ∈ ts, t.entry ≠ some []) →
    List.Forall₂ (· ≤ ·) (lineRadixes true ts) (lineRadixes false ts) := by
  intro ts
  induction ts with
  | nil => intro _; exact List.Forall₂.nil
  | cons t ts ih =>
    intro h
    cases ts with
    | nil => exact List.Forall₂.cons (le_refl _) List.Forall₂.nil
    | cons t' ts' =>
      rw [show lineRadixes true (t :: t' :: ts') =
          tokenRadixInner true t :: lineRadixes true (t' :: ts') from rfl,
        show lineRadixes false (t :: t' :: ts') =
          tokenRadixInner false t :: lineRadixes false (t' :: ts') from rfl]
      refine List.Forall₂.cons ?_ (ih fun x hx => h x (by simp [hx]))
      rcases he : t.entry with _ | v
      · simp [tokenRadixInner, he]
      · have hv : v ≠ [] := fun hv0 => h t (by simp) (by rw [he, hv0])
        by_cases h1 : v.length = 1
        · simp [tokenRadixInner, he, h1]
        · by_cases h2 : allSameSyl v = true
          · have hp : 0 < v.length := List.length_pos.mpr hv
            have hT : tokenRadixInner true t = 1 := by
              simp [tokenRadixInner, he, h1, h2]
            have hF : tokenRadixInner false t = v.length := by
              simp [tokenRadixInner, he, h1]
            rw [hT, hF]
            omega
          · simp [tokenRadixInner, he, h1, h2]

/-- The stanza-level odometer count is the product over lines of the
per-line radix products. -/
lemma sProd_viewRadixes (filter : Bool) (lvs : List LineView) :
    sProd (viewRadixes filter lvs) =
      (lvs.map fun lv => (lineRadixes filter lv.line.tokens).prod).prod := by
  simp only [sProd, viewRadixes]
  rw [List.map_map]
  rfl

/-- Pruned per-line products are pointwise at most the unpruned ones. -/
lemma viewProd_le : ∀ lvs : List LineView,
    (∀ lv ∈ lvs, ∀ t ∈ lv.line.tokens, t.entry ≠ some []) →
    List.Forall₂ (· ≤ ·)
      (lvs.map fun lv => (lineRadixes true lv.line.tokens).prod)
      (lvs.map fun lv => (lineRadixes false lv.line.tokens).prod) := by
  intro lvs
  induction lvs with
  | nil => intro _; exact List.Forall₂.nil
  | cons lv lvs ih =>
    intro h
    refine List.Forall₂.cons ?_ (ih fun x hx => h x (by simp [hx]))
    exact prod_le_of_le_forall₂ (lineRadixes_le lv.line.tokens (h lv (by simp)))

/-- size_hint evaluates to the odometer product of the iterator's own
filter setting, with no lower bound claimed. -/
lemma size_hint_eq (it : InterpretationsIter) :
    it.size_hint = (0, some (sProd (viewRadixes it.filter it.view.lines))) := by
  cases hf : it.filter
  · have hmap : (List.map (fun lv => (sizeTokens lv.line.tokens).2) it.view.lines) =
        List.map (fun lv => (lineRadixes false lv.line.tokens).prod) it.view.lines :=
      List.map_congr_left fun lv _ => by rw [sizeTokens_eq]
    simp only [InterpretationsIter.size_hint, hf, Bool.false_eq_true, if_false,
      sProd_viewRadixes, hmap]
  · have hmap : (List.map (fun lv => (sizeTokens lv.line.tokens).1) it.view.lines) =
        List.map (fun lv => (lineRadixes true lv.line.tokens).prod) it.view.lines :=
      List.map_congr_left fun lv _ => by rw [sizeTokens_eq]
    simp only [InterpretationsIter.size_hint, hf, if_true, sProd_viewRadixes, hmap]

end Poet

namespace Poet

/-!  Claim C6 (confirmed): size_hint reports the radix products.  -/

/-- C6: size_hint is computed as the product of all advanceable token
ranges (the odometer radixes of the iterator's own filter setting),
without running the iterator; on a stanza's iterator it therefore equals
the exact number of views the run produces; and the pruned product is
strictly below the unpruned one whenever some line has an interior token
with two or more variants all sharing one syllable count. -/
theorem c6_size_hint_reports_radix_products (s : Stanza)
    (hwf : ∀ l ∈ s.lines, ∀ t ∈ l.tokens, t.entry ≠ some []) :
    (∀ it : InterpretationsIter,
      it.size_hint = (0, some (sProd (viewRadixes it.filter it.view.lines)))) ∧
    (s.interpretations).size_hint =
      (0, some ((runIter (sProd (viewRadixes true (StanzaView.new s).lines) + 1)
        (s.interpretations)).1.length)) ∧
    (∀ (j : Nat) (l : Line), s.lines.get? j = some l →
      ∀ (k : Nat) (t : Token), l.tokens.get? k = some t →
        k + 1 < l.tokens.length →
        ∀ es, t.entry = some es → 2 ≤ es.length → allSameSyl es = true →
        sProd (viewRadixes true (StanzaView.new s).lines) <
          sProd (viewRadixes false (StanzaView.new s).lines)) := by
  have hpos : ∀ rs ∈ viewRadixes true (StanzaView.new s).lines, ∀ r ∈ rs, 0 < r := by
    intro rs hrs r hr
    obtain ⟨lv, hlv, rfl⟩ := List.mem_map.mp hrs
    obtain ⟨l, hl, rfl⟩ := List.mem_map.mp hlv
    exact lineRadixes_pos true l.tokens (hwf l hl) r hr
  have hit : s.interpretations =
      (⟨⟨(StanzaView.new s).lines⟩, true, true⟩ : InterpretationsIter) := rfl
  have hwf' : ∀ lv ∈ (StanzaView.new s).lines, ∀ t ∈ lv.line.tokens,
      t.entry ≠ some [] := by
    intro lv hlv
    obtain ⟨l', hl', rfl⟩ := List.mem_map.mp hlv
    exact hwf l' hl'
  refine ⟨size_hint_eq, ?_, ?_⟩
  · have hlen := (runIter_full true (StanzaView.new s).lines
      (viewIndices_new true s) hpos).2.1
    rw [size_hint_eq (s.interpretations), hit, hlen]
  · intro j l hj k t hk hklt es hes h2 hsame
    have hlv0 : (StanzaView.new s).lines.get? j = some (LineView.new l) := by
      simp only [StanzaView.new, List.get?_eq_getElem?, List.getElem?_map]
      rw [← List.get?_eq_getElem?, hj]
      rfl
    have hA : ((StanzaView.new s).lines.map
        fun lv => (lineRadixes true lv.line.tokens).prod).get? j =
        some (lineRadixes true l.tokens).prod := by
      simp only [List.get?_eq_getElem?, List.getElem?_map]
      rw [← List.get?_eq_getElem?, hlv0]
      rfl
    have hB : ((StanzaView.new s).lines.map
        fun lv => (lineRadixes false lv.line.tokens).prod).get? j =
        some (lineRadixes false l.tokens).prod := by
      simp only [List.get?_eq_getElem?, List.getElem?_map]
      rw [← List.get?_eq_getElem?, hlv0]
      rfl
    have hApos : ∀ x ∈ (StanzaView.new s).lines.map
        (fun lv => (lineRadixes true lv.line.tokens).prod), 0 < x := by
      intro x hx
      obtain ⟨lv, hlv, rfl⟩ := List.mem_map.mp hx
      exact List.prod_pos (lineRadixes_pos true _ (hwf' lv hlv))
    have hlgetT := lineRadixes_get true l.tokens k t hk
    rw [if_neg (by omega)] at hlgetT
    have hlgetF := lineRadixes_get false l.tokens k t hk
    rw [if_neg (by omega)] at hlgetF
    have hTi : tokenRadixInner true t = 1 := by
      simp [tokenRadixInner, hes, hsame]
    have hFi : tokenRadixInner false t = es.length := by
      have h1 : ¬(es.length = 1) := by omega
      simp [tokenRadixInner, hes, h1]
    have hline : (lineRadixes true l.tokens).prod <
        (lineRadixes false l.tokens).prod := by
      refine prod_lt_of_lt_forall₂
        (lineRadixes_le l.tokens (hwf l (List.get?_mem hj)))
        (lineRadixes_pos true l.tokens (hwf l (List.get?_mem hj))) k
        (tokenRadixInner true t) (tokenRadixInner false t) hlgetT hlgetF ?_
      rw [hTi, hFi]
      omega
    rw [sProd_viewRadixes true, sProd_viewRadixes false]
    exact prod_lt_of_lt_forall₂ (viewProd_le _ hwf') hApos j _ _ hA hB hline

/-- Witness for C6 at the fixture stanza: its first line's interior
token with two same-syllable variants makes the pruned count strictly
smaller than the unpruned one. -/
theorem c6_size_hint_reports_radix_products_witness :
    sProd (viewRadixes true (StanzaView.new wStanza).lines) <
      sProd (viewRadixes false (StanzaView.new wStanza).lines) :=
  (c6_size_hint_reports_radix_products wStanza (by decide)).2.2 0
    ⟨"a b c".toList, 1, 0,
      [⟨"a".toList, some [wEntry 1 1]⟩,
       ⟨"b".toList, some [wEntry 1 1, wEntry 1 2]⟩,
       ⟨"c".toList, some [wEntry 1 1, wEntry 1 2, wEntry 1 3]⟩]⟩ (by decide)
    1 ⟨"b".toList, some [wEntry 1 1, wEntry 1 2]⟩ (by decide) (by decide)
    [wEntry 1 1, wEntry 1 2] (by decide) (by decide) (by decide)

end Poet

namespace Poet

/-!  Lemmas for C3: the reversed-key prefix test vs final syllables.  -/

/-- The one-syllable key is the space-joined encoding of the leading
phonemes up to the first vowel. -/
lemma lnsGo_one : ∀ ps : List Str,
    lnsGo ps 1 = ((takeToVowel ps).map fun p => p ++ [' ']).flatten := by
  intro ps
  induction ps with
  | nil => rfl
  | cons p ps ih =>
    by_cases h : p.any chIsDig = true
    · simp [lnsGo, takeToVowel, h]
    · simp [lnsGo, takeToVowel, h, ih]

/-- A space-terminated token is a prefix of another space-terminated
token with continuation exactly when the tokens agree and the remainders
are prefixes, provided neither token contains a space. -/
lemma token_space_split : ∀ (x y u v : Str), ' ' ∉ x → ' ' ∉ y →
    ((x ++ ' ' :: u) <+: (y ++ ' ' :: v) ↔ x = y ∧ u <+: v) := by
  intro x
  induction x with
  | nil =>
    intro y u v _ hy
    cases y with
    | nil => simp [List.cons_prefix_iff]
    | cons d y2 =>
      have hd : d ≠ ' ' := fun h => hy (by simp [h])
      simp only [List.nil_append, List.cons_append, List.cons_prefix_iff]
      constructor
      · rintro ⟨h, -⟩
        exact absurd h.symm hd
      · rintro ⟨h, -⟩
        exact absurd h (by simp)
  | cons a x ih =>
    intro y u v hx hy
    cases y with
    | nil =>
      have ha : a ≠ ' ' := fun h => hx (by simp [h])
      simp only [List.cons_append, List.nil_append, List.cons_prefix_iff]
      constructor
      · rintro ⟨h, -⟩
        exact absurd h ha
      · rintro ⟨h, -⟩
        exact absurd h (by simp)
    | cons b y2 =>
      have hx2 : ' ' ∉ x := fun h => hx (by simp [h])
      have hy2 : ' ' ∉ y2 := fun h => hy (by simp [h])
      simp only [List.cons_append, List.cons_prefix_iff, ih y2 u v hx2 hy2,
        List.cons.injEq, and_assoc]

/-- The space-joined encoding respects list prefixes: with space-free
nonempty tokens and a space-free continuation, the encodings are
prefix-related exactly when the token lists are. -/
lemma enc_prefix_iff : ∀ (A B : List Str) (dk : Str),
    (∀ p ∈ A, p ≠ [] ∧ ' ' ∉ p) → (∀ p ∈ B, p ≠ [] ∧ ' ' ∉ p) → ' ' ∉ dk →
    ((A.map fun p => p ++ [' ']).flatten <+:
        ((B.map fun p => p ++ [' ']).flatten ++ dk) ↔ A <+: B) := by
  intro A
  induction A with
  | nil =>
    intro B dk _ _ _
    simp
  | cons a A ih =>
    intro B dk hA hB hdk
    cases B with
    | nil =>
      simp only [List.map_nil, List.flatten_nil, List.nil_append, List.map_cons,
        List.flatten_cons]
      constructor
      · intro h
        exfalso
        apply hdk
        obtain ⟨t, ht⟩ := h
        rw [← ht]
        simp
      · intro h
        rw [List.prefix_nil] at h
        simp at h
    | cons b B2 =>
      have hA2 : ∀ p ∈ A, p ≠ [] ∧ ' ' ∉ p := fun p hp => hA p (by simp [hp])
      have hB2 : ∀ p ∈ B2, p ≠ [] ∧ ' ' ∉ p := fun p hp => hB p (by simp [hp])
      have ha : ' ' ∉ a := (hA a (by simp)).2
      have hb : ' ' ∉ b := (hB b (by simp)).2
      simp only [List.map_cons, List.flatten_cons, List.append_assoc,
        List.singleton_append, List.cons_append]
      rw [token_space_split a b _ _ ha hb]
      simp only [List.nil_append]
      rw [ih B2 dk hA2 hB2 hdk, List.cons_prefix_iff]

/-- The leading phonemes up to the first vowel are a prefix of the
sequence. -/
lemma takeToVowel_prefix_self : ∀ l : List Str, takeToVowel l <+: l := by
  intro l
  induction l with
  | nil => exact List.prefix_refl _
  | cons p ps ih =>
    by_cases h : p.any chIsDig = true
    · simp only [takeToVowel, h, if_true]
      exact ⟨ps, rfl⟩
    · simp only [takeToVowel, h, if_false]
      exact List.cons_prefix_iff.mpr ⟨rfl, ih⟩

/-- If the vowel-terminated head of m prefixes l, then l has the same
vowel-terminated head. -/
lemma takeToVowel_eq_of_prefix : ∀ (m l : List Str),
    (∃ p ∈ m, p.any chIsDig = true) → takeToVowel m <+: l →
    takeToVowel l = takeToVowel m := by
  intro m
  induction m with
  | nil =>
    intro l hm _
    obtain ⟨p, hp, -⟩ := hm
    cases hp
  | cons p m ih =>
    intro l hm hpre
    by_cases h : p.any chIsDig = true
    · rw [show takeToVowel (p :: m) = [p] from by simp [takeToVowel, h]] at hpre ⊢
      obtain ⟨t, ht⟩ := hpre
      rw [← ht]
      simp [takeToVowel, h]
    · rw [show takeToVowel (p :: m) = p :: takeToVowel m from by
        simp [takeToVowel, h]] at hpre ⊢
      cases l with
      | nil =>
        rw [List.prefix_nil] at hpre
        simp at hpre
      | cons q l2 =>
        rw [List.cons_prefix_iff] at hpre
        obtain ⟨rfl, hpre2⟩ := hpre
        have hm2 : ∃ z ∈ m, z.any chIsDig = true := by
          obtain ⟨z, hz, hzd⟩ := hm
          rcases List.mem_cons.mp hz with rfl | hz2
          · exact absurd hzd h
          · exact ⟨z, hz2, hzd⟩
        rw [show takeToVowel (p :: l2) = p :: takeToVowel l2 from by
          simp [takeToVowel, h]]
        rw [ih l2 hm2 hpre2]

/-- For a sequence containing a vowel, its vowel-terminated head
prefixes l exactly when l has the identical vowel-terminated head. -/
lemma takeToVowel_prefix_iff (m l : List Str)
    (hm : ∃ p ∈ m, p.any chIsDig = true) :
    takeToVowel m <+: l ↔ takeToVowel l = takeToVowel m := by
  constructor
  · exact takeToVowel_eq_of_prefix m l hm
  · intro h
    rw [← h]
    exact takeToVowel_prefix_self l

end Poet

namespace Poet

/-- Unpacking the row invariant: each reverse row resolves to a
well-formed entry holding its similarity key. -/
lemma rowsWFB_spec {d : DictionaryImpl} (hwf : rowsWFB d = true) :
    ∀ row ∈ d.reverse_list, ∃ e : Entry,
      d.lookup_variant row.2.1 row.2.2 = some e ∧
      row.1 = e.similarity_key ∧
      (∀ ph ∈ e.phonemes.phonemes, ph ≠ [] ∧ ' ' ∉ ph) ∧
      ' ' ∉ e.dict_key := by
  intro row hrow
  have h := List.all_eq_true.mp hwf row hrow
  cases hcase : d.lookup_variant row.2.1 row.2.2 with
  | none =>
    rw [hcase] at h
    simp at h
  | some e =>
    rw [hcase] at h
    rw [Bool.and_eq_true] at h
    obtain ⟨hkey, hent⟩ := h
    rw [decide_eq_true_eq] at hkey
    rw [entryWFB, Bool.and_eq_true] at hent
    obtain ⟨hphs, hdk⟩ := hent
    rw [decide_eq_true_eq] at hdk
    refine ⟨e, rfl, hkey, ?_, hdk⟩
    intro ph hph
    have h2 := List.all_eq_true.mp hphs ph hph
    rw [Bool.and_eq_true, decide_eq_true_eq] at h2
    obtain ⟨h3, h4⟩ := h2
    refine ⟨?_, h4⟩
    intro h0
    rw [h0] at h3
    simp at h3

/-- Unpacking the query invariant: every query variant is well-formed
and has a vowel phoneme. -/
lemma queryWFB_spec {d : DictionaryImpl} {query : Str} {qvs : List Entry}
    (hq : queryWFB d query = true) (hl : d.lookup query = some qvs) :
    ∀ qv ∈ qvs,
      (∀ ph ∈ qv.phonemes.phonemes, ph ≠ [] ∧ ' ' ∉ ph) ∧
      (∃ ph ∈ qv.phonemes.phonemes, ph.any chIsDig = true) := by
  intro qv hqv
  simp only [queryWFB, hl, List.all_eq_true] at hq
  have h := hq qv hqv
  rw [Bool.and_eq_true] at h
  obtain ⟨h1, h2⟩ := h
  constructor
  · intro ph hph
    have h3 := List.all_eq_true.mp h1 ph hph
    rw [Bool.and_eq_true, decide_eq_true_eq] at h3
    obtain ⟨h4, h5⟩ := h3
    refine ⟨?_, h5⟩
    intro h0
    rw [h0] at h4
    simp at h4
  · rw [List.any_eq_true] at h2
    obtain ⟨ph, hph, hd⟩ := h2
    exact ⟨ph, hph, hd⟩

/-- Pointwise equivalence of the code's row filter (reversed-key prefix
test) and the spec's final-syllable test, for a query variant with a
vowel, under the row invariant. -/
lemma similar_row_eq (d : DictionaryImpl) (query : Str) (qv : Entry)
    (hqv : ∀ ph ∈ qv.phonemes.phonemes, ph ≠ [] ∧ ' ' ∉ ph)
    (hqvow : ∃ ph ∈ qv.phonemes.phonemes, ph.any chIsDig = true)
    (hwf : rowsWFB d = true) :
    ∀ row ∈ d.reverse_list,
      (if (qv.phonemes.last_n_syllables 1).isPrefixOf row.1 then
        if row.2.1 = query then none
        else
          match d.lookup_variant row.2.1 row.2.2 with
          | none => none
          | some pr =>
            some (⟨row.2.1, pr.num_syllables,
              qv.phonemes.similarity_score pr.phonemes⟩ : SimilarWord)
      else none) = specRhymeCandidate d query qv row := by
  intro row hrow
  obtain ⟨e, hlook, hkey, hph, hdk⟩ := rowsWFB_spec hwf row hrow
  have hA : ∀ p ∈ takeToVowel qv.phonemes.phonemes.reverse, p ≠ [] ∧ ' ' ∉ p := by
    intro p hp
    have hmem : p ∈ qv.phonemes.phonemes.reverse :=
      (takeToVowel_prefix_self _).sublist.subset hp
    exact hqv p (List.mem_reverse.mp hmem)
  have hB : ∀ p ∈ e.phonemes.phonemes.reverse, p ≠ [] ∧ ' ' ∉ p :=
    fun p hp => hph p (List.mem_reverse.mp hp)
  have hvowrev : ∃ p ∈ qv.phonemes.phonemes.reverse, p.any chIsDig = true := by
    obtain ⟨p, hp, hd⟩ := hqvow
    exact ⟨p, List.mem_reverse.mpr hp, hd⟩
  have hcond : ((qv.phonemes.last_n_syllables 1).isPrefixOf row.1 = true) ↔
      finalSyllable e.phonemes = finalSyllable qv.phonemes := by
    rw [ List.isPrefixOf_iff_prefix, hkey]
    have h1 : qv.phonemes.last_n_syllables 1 =
        ((takeToVowel qv.phonemes.phonemes.reverse).map fun p => p ++ [' ']).flatten :=
      lnsGo_one _
    rw [h1]
    rw [show e.similarity_key =
        ((e.phonemes.phonemes.reverse.map fun p => p ++ [' ']).flatten) ++ e.dict_key
      from rfl]
    rw [enc_prefix_iff (takeToVowel qv.phonemes.phonemes.reverse)
      e.phonemes.phonemes.reverse e.dict_key hA hB hdk]
    rw [takeToVowel_prefix_iff _ _ hvowrev]
    exact Iff.rfl
  by_cases hpre : (qv.phonemes.last_n_syllables 1).isPrefixOf row.1 = true
  · rw [if_pos hpre]
    by_cases hwq : row.2.1 = query
    · rw [if_pos hwq]
      simp only [specRhymeCandidate, hlook]
      rw [if_neg (by simp [hwq])]
    · rw [if_neg hwq]
      simp only [hlook]
      simp only [specRhymeCandidate, hlook]
      rw [if_pos ⟨hcond.mp hpre, hwq⟩]
  · rw [if_neg hpre]
    simp only [specRhymeCandidate, hlook]
    rw [if_neg (by intro hcon; exact hpre (hcond.mpr hcon.1))]

end Poet

namespace Poet

/-!  Claim C3 (corrected): similar is a reversed-key prefix search; it
matches the spec's final-syllable characterization only when every query
variant has a vowel phoneme.  -/

/-- C3 counterexample: in the dictionary built from the two-line lexicon
for sh and wish, the query sh (whose sole variant SH has no vowel
phoneme) returns wish with score 1, although wish's final-syllable
phoneme sequence differs from that of the only pronunciation variant of
sh — contradicting the claimed characterization, under which the result
would be empty. -/
theorem c3_similar_not_final_syllable_counterexample :
    DictionaryImpl.new.insert_all ["sh SH".toList, "wish W IH1 SH".toList] =
      some cxDict ∧
    (cxDict.similar "sh".toList).words =
      [⟨"wish".toList, 1, 1⟩] ∧
    cxDict.lookup "sh".toList =
      some [⟨"sh".toList, ⟨["SH".toList], 0⟩, 1⟩] ∧
    cxDict.lookup_variant "wish".toList 1 =
      some ⟨"wish".toList, ⟨["W".toList, "IH1".toList, "SH".toList], 1⟩, 1⟩ ∧
    finalSyllable (⟨["W".toList, "IH1".toList, "SH".toList], 1⟩ : Phonemes) ≠
      finalSyllable (⟨["SH".toList], 0⟩ : Phonemes) := by
  decide

/-- C3 (amended): an unknown query yields the empty result; the result
list is sorted by the SimilarWord order (descending score, ties
ascending by word); and — under the dictionary row invariant, provided
every pronunciation variant of the query contains a vowel phoneme — the
results are exactly (as a multiset) the spec's candidates: one
SimilarWord per (entry variant, query variant) pair whose final-syllable
phoneme sequences are equal, the query word itself excluded, scored by
the longest common phoneme suffix run. -/
theorem c3_similar_rhyme_characterization (d : DictionaryImpl) (query : Str)
    (hwf : rowsWFB d = true) (hq : queryWFB d query = true) :
    (d.lookup query = none → (d.similar query).words = []) ∧
    List.Sorted simLe (d.similar query).words ∧
    List.Perm (d.similar query).words (specRhymes d query) := by
  cases hl : d.lookup query with
  | none =>
    refine ⟨fun _ => ?_, ?_, ?_⟩
    · simp [DictionaryImpl.similar, hl]
    · simp [DictionaryImpl.similar, hl]
    · simp [DictionaryImpl.similar, specRhymes, hl]
  | some qvs =>
    have hqv := queryWFB_spec hq hl
    have hmap : (qvs.map fun qv => similarRows d query qv) =
        qvs.map fun qv => d.reverse_list.filterMap (specRhymeCandidate d query qv) := by
      apply List.map_congr_left
      intro qv hqvm
      simp only [similarRows]
      exact List.filterMap_congr
        (similar_row_eq d query qv (hqv qv hqvm).1 (hqv qv hqvm).2 hwf)
    refine ⟨?_, ?_, ?_⟩
    · intro hnone
      cases hnone
    · simp only [DictionaryImpl.similar, hl]
      exact List.sorted_insertionSort simLe _
    · simp only [DictionaryImpl.similar, specRhymes, hl]
      rw [hmap]
      exact List.perm_insertionSort simLe _

/-- Witness for C3 at the three-word rhyming lexicon, query cat. -/
theorem c3_similar_rhyme_characterization_witness :
    List.Sorted simLe (catDict.similar "cat".toList).words ∧
    List.Perm (catDict.similar "cat".toList).words
      (specRhymes catDict "cat".toList) :=
  ⟨(c3_similar_rhyme_characterization catDict "cat".toList
      (by decide) (by decide)).2.1,
   (c3_similar_rhyme_characterization catDict "cat".toList
      (by decide) (by decide)).2.2⟩

end Poet
